import Mathlib

/-!
Verification development for the `lingua` regular-expression engine.

The Python source is embedded shallowly:

* `src/automata/nfa.py` — `NFA._access`, `EPSILON_NFA` (`_e_closure`,
  `_e_closures`, `_access`);
* `src/grammar/regular_expressions.py` — the `RegEx` parser passes and
  `check`;
* `src/grammar/operators.py` — the operator nodes and their `execute`
  methods;
* `src/automata/pda.py` — `DeterministicPDA._access`.

Parts of the repository referenced by these files are not present in the
source tree (the `FiniteAutomaton` base class, the `EpsilonNFA` value type
with `factory`, union, concatenation, Kleene closure and deep copy, the
`Single` operator class, the state/stack primitives and the error classes).
Those are modelled from the specification; each such definition carries a
doc comment starting with `Modelled from the spec:`.

States are identified by natural numbers (the source uses unique names per
automaton; composition renames colliding names, which the model realises by
shifting identifiers).  Input symbols are strings, as in the source, where
an input symbol is a Python string (usually of length one; the epsilon
symbol default is `"$"`).
-/

/-- A finite automaton with epsilon transitions, as the tuple
(States, Inputs, Start-state, Accept-states) of the spec data model plus the
transition list.  The mutable current set of the source is passed explicitly
to the execution functions. -/
structure ENFA where
  states : List Nat
  inputs : List String
  startState : Nat
  accepts : List Nat
  trans : List (Nat × String × Nat)
  deriving Repr, DecidableEq

namespace ENFA

/-- The epsilon symbol: the source default `'$'` (`EPSILON_NFA.__init__`). -/
def eps : String := "$"

/-- `State.forward(symbol)` of the state-graph primitives: the successor
list of state `s` under input symbol `v`. -/
def forward (A : ENFA) (s : Nat) (v : String) : List Nat :=
  (A.trans.filter (fun e => e.1 = s ∧ e.2.1 = v)).map (fun e => e.2.2)

/-- All transition targets of the automaton; only used to bound the fuel of
the closure computation. -/
def targets (A : ENFA) : Finset Nat :=
  (A.trans.map (fun e => e.2.2)).toFinset

/-- Well-formedness invariants of the spec data model: the start state is a
state, transition endpoints are states, transition labels are inputs, and
accept states are states. -/
def WF (A : ENFA) : Prop :=
  A.startState ∈ A.states ∧
  (∀ e ∈ A.trans, e.1 ∈ A.states ∧ e.2.2 ∈ A.states ∧ e.2.1 ∈ A.inputs) ∧
  (∀ a ∈ A.accepts, a ∈ A.states)

instance (A : ENFA) : Decidable A.WF := by
  unfold WF; infer_instance

/-- The inner loop of `EPSILON_NFA._e_closure`: walk the epsilon successor
list, recursing (via `visit`) into every successor not yet in the closure
accumulator. -/
def eClosureList (visit : Nat → Finset Nat → Except String (Finset Nat)) :
    List Nat → Finset Nat → Except String (Finset Nat)
  | [], cl => .ok cl
  | t :: ts, cl =>
    if t ∈ cl then eClosureList visit ts cl
    else
      match visit t cl with
      | .error e => .error e
      | .ok cl2 => eClosureList visit ts cl2

/-- `EPSILON_NFA._e_closure(state, closure)`: raise if the state is unknown,
add the state to the accumulator, then recurse into the epsilon successors
that are not yet in the accumulator.  The fuel argument only serves
termination; every theorem below supplies enough fuel for the recursion
depth, which the source bounds by the number of states. -/
def eClosure (A : ENFA) : Nat → Nat → Finset Nat → Except String (Finset Nat)
  | 0, _, _ => .error "fuel exhausted"
  | n + 1, s, cl =>
    if s ∈ A.states then eClosureList (A.eClosure n) (A.forward s eps) (insert s cl)
    else .error "invalid input"

/-- The loop of `EPSILON_NFA._e_closures(*states)`: starting from the set of
the given states, fold `_e_closure` over them with the shared accumulator. -/
def eClosuresList (A : ENFA) (fuel : Nat) :
    List Nat → Finset Nat → Except String (Finset Nat)
  | [], cl => .ok cl
  | s :: ss, cl =>
    match A.eClosure fuel s cl with
    | .error e => .error e
    | .ok cl2 => A.eClosuresList fuel ss cl2

/-- The elements of a finite set as a sorted list (insertion sort lifted
over the permutation quotient, so that it stays computable and reduces in
the kernel). -/
def sortedList (S : Finset Nat) : List Nat :=
  Quotient.lift (List.insertionSort (· ≤ ·))
    (fun a b hab =>
      List.eq_of_perm_of_sorted
        (((List.perm_insertionSort _ a).trans hab).trans
          (List.perm_insertionSort _ b).symm)
        (List.sorted_insertionSort _ a) (List.sorted_insertionSort _ b))
    S.val

theorem mem_sortedList {S : Finset Nat} {a : Nat} :
    a ∈ sortedList S ↔ a ∈ S := by
  rcases S with ⟨m, hnd⟩
  induction m using Quotient.inductionOn with
  | h l =>
    show a ∈ List.insertionSort (· ≤ ·) l ↔ _
    rw [(List.perm_insertionSort (· ≤ ·) l).mem_iff]
    rfl

/-- `EPSILON_NFA._e_closures(*S)`: the epsilon closure of a set of states.
The source iterates over the set in an unspecified order; the model iterates
in ascending order (the result is order-independent, see
`eClosures_spec`). -/
def eClosures (A : ENFA) (S : Finset Nat) : Except String (Finset Nat) :=
  A.eClosuresList (A.trans.length + 1) (sortedList S) S

/-- A set is closed under epsilon transitions. -/
def EClosed (A : ENFA) (T : Set Nat) : Prop :=
  ∀ s ∈ T, ∀ t ∈ A.forward s eps, t ∈ T

/-- One-step epsilon reachability. -/
def EStep (A : ENFA) (s t : Nat) : Prop := t ∈ A.forward s eps

/-- Epsilon reachability: the reflexive-transitive closure of `EStep`. -/
def EReach (A : ENFA) : Nat → Nat → Prop := Relation.ReflTransGen A.EStep

theorem mem_targets_of_forward (A : ENFA) {s : Nat} {v : String} {t : Nat}
    (h : t ∈ A.forward s v) : t ∈ A.targets := by
  simp only [forward, List.mem_map, List.mem_filter] at h
  obtain ⟨e, ⟨he, _⟩, rfl⟩ := h
  simp only [targets, List.mem_toFinset, List.mem_map]
  exact ⟨e, he, rfl⟩

theorem card_toFinset_le (l : List Nat) : l.toFinset.card ≤ l.length := by
  induction l with
  | nil => simp
  | cons a l ih =>
    simp only [List.toFinset_cons, List.length_cons]
    exact le_trans (Finset.card_insert_le _ _) (Nat.succ_le_succ ih)

theorem targets_card_le (A : ENFA) : A.targets.card ≤ A.trans.length := by
  simpa [targets] using card_toFinset_le (A.trans.map (fun e => e.2.2))

/-! ### Growth: the closure accumulator only grows. -/

theorem eClosureList_subset
    {visit : Nat → Finset Nat → Except String (Finset Nat)}
    (hv : ∀ t cl R, visit t cl = .ok R → cl ⊆ R) :
    ∀ ts cl R, eClosureList visit ts cl = .ok R → cl ⊆ R := by
  intro ts
  induction ts with
  | nil => intro cl R h; simp only [eClosureList, Except.ok.injEq] at h; exact h ▸ Finset.Subset.refl _
  | cons t ts ih =>
    intro cl R h
    simp only [eClosureList] at h
    by_cases hm : t ∈ cl
    · simp only [if_pos hm] at h; exact ih cl R h
    · simp only [if_neg hm] at h
      cases hvt : visit t cl with
      | error e => rw [hvt] at h; cases h
      | ok cl2 => rw [hvt] at h; exact (hv t cl cl2 hvt).trans (ih cl2 R h)

theorem eClosure_subset (A : ENFA) :
    ∀ n s cl R, A.eClosure n s cl = .ok R → insert s cl ⊆ R := by
  intro n
  induction n with
  | zero => intro s cl R h; cases h
  | succ n ih =>
    intro s cl R h
    simp only [eClosure] at h
    by_cases hs : s ∈ A.states
    · simp only [if_pos hs] at h
      exact eClosureList_subset (fun t cl' R' h' =>
        (Finset.subset_insert t cl').trans (ih t cl' R' h')) _ _ _ h
    · simp only [if_neg hs] at h; cases h

theorem eClosure_mem (A : ENFA) {n : Nat} {s : Nat} {cl R : Finset Nat}
    (h : A.eClosure n s cl = .ok R) : s ∈ R :=
  eClosure_subset A n s cl R h (Finset.mem_insert_self s cl)

theorem eClosureList_mem_of_mem
    {visit : Nat → Finset Nat → Except String (Finset Nat)}
    (hv : ∀ t cl R, visit t cl = .ok R → insert t cl ⊆ R) :
    ∀ ts cl R, eClosureList visit ts cl = .ok R → ∀ t ∈ ts, t ∈ R := by
  have hgrow : ∀ t cl R, visit t cl = .ok R → cl ⊆ R :=
    fun t cl R h => (Finset.subset_insert t cl).trans (hv t cl R h)
  intro ts
  induction ts with
  | nil => intro cl R _ t ht; cases ht
  | cons u ts ih =>
    intro cl R h t ht
    simp only [eClosureList] at h
    rcases List.mem_cons.mp ht with rfl | ht'
    · by_cases hm : t ∈ cl
      · simp only [if_pos hm] at h
        exact eClosureList_subset hgrow _ _ _ h hm
      · simp only [if_neg hm] at h
        cases hvt : visit t cl with
        | error e => rw [hvt] at h; cases h
        | ok cl2 =>
          rw [hvt] at h
          exact eClosureList_subset hgrow _ _ _ h
            (hv t cl cl2 hvt (Finset.mem_insert_self t cl))
    · by_cases hm : u ∈ cl
      · simp only [if_pos hm] at h; exact ih cl R h t ht'
      · simp only [if_neg hm] at h
        cases hvu : visit u cl with
        | error e => rw [hvu] at h; cases h
        | ok cl2 => rw [hvu] at h; exact ih cl2 R h t ht'

/-! ### Minimality: the closure stays inside any closed superset. -/

theorem eClosureList_min
    {visit : Nat → Finset Nat → Except String (Finset Nat)} {T : Set Nat}
    (hv : ∀ (t : Nat) (cl R : Finset Nat), t ∈ T → (↑cl : Set Nat) ⊆ T →
      visit t cl = .ok R → (↑R : Set Nat) ⊆ T) :
    ∀ (ts : List Nat) (cl R : Finset Nat), (∀ t ∈ ts, t ∈ T) →
      (↑cl : Set Nat) ⊆ T →
      eClosureList visit ts cl = .ok R → (↑R : Set Nat) ⊆ T := by
  intro ts
  induction ts with
  | nil =>
    intro cl R _ hcl h
    simp only [eClosureList, Except.ok.injEq] at h; exact h ▸ hcl
  | cons t ts ih =>
    intro cl R hts hcl h
    simp only [eClosureList] at h
    by_cases hm : t ∈ cl
    · simp only [if_pos hm] at h
      exact ih cl R (fun u hu => hts u (List.mem_cons_of_mem t hu)) hcl h
    · simp only [if_neg hm] at h
      cases hvt : visit t cl with
      | error e => rw [hvt] at h; cases h
      | ok cl2 =>
        rw [hvt] at h
        exact ih cl2 R (fun u hu => hts u (List.mem_cons_of_mem t hu))
          (hv t cl cl2 (hts t (List.mem_cons_self t ts)) hcl hvt) h

theorem eClosure_min (A : ENFA) {T : Set Nat} (hT : A.EClosed T) :
    ∀ (n s : Nat) (cl R : Finset Nat), s ∈ T → (↑cl : Set Nat) ⊆ T →
      A.eClosure n s cl = .ok R → (↑R : Set Nat) ⊆ T := by
  intro n
  induction n with
  | zero => intro s cl R _ _ h; cases h
  | succ n ih =>
    intro s cl R hs hcl h
    simp only [eClosure] at h
    by_cases hst : s ∈ A.states
    · simp only [if_pos hst] at h
      refine eClosureList_min (fun t cl' R' ht hcl' h' => ih t cl' R' ht hcl' h')
        _ _ _ (fun t ht => hT s hs t ht) ?_ h
      intro x hx
      rcases Finset.mem_insert.mp hx with rfl | hx'
      · exact hs
      · exact hcl hx'
    · simp only [if_neg hst] at h; cases h

/-! ### Upper bound and fuel sufficiency. -/

theorem eClosureList_bound
    {visit : Nat → Finset Nat → Except String (Finset Nat)} {B : Finset Nat}
    (hv : ∀ (t : Nat) (cl R : Finset Nat), t ∈ B → cl ⊆ B → visit t cl = .ok R →
      R ⊆ B) :
    ∀ (ts : List Nat) (cl R : Finset Nat), (∀ t ∈ ts, t ∈ B) → cl ⊆ B →
      eClosureList visit ts cl = .ok R → R ⊆ B := by
  intro ts
  induction ts with
  | nil => intro cl R _ hcl h; simp only [eClosureList, Except.ok.injEq] at h; exact h ▸ hcl
  | cons t ts ih =>
    intro cl R hts hcl h
    simp only [eClosureList] at h
    by_cases hm : t ∈ cl
    · simp only [if_pos hm] at h
      exact ih cl R (fun u hu => hts u (List.mem_cons_of_mem t hu)) hcl h
    · simp only [if_neg hm] at h
      cases hvt : visit t cl with
      | error e => rw [hvt] at h; cases h
      | ok cl2 =>
        rw [hvt] at h
        exact ih cl2 R (fun u hu => hts u (List.mem_cons_of_mem t hu))
          (hv t cl cl2 (hts t (List.mem_cons_self t ts)) hcl hvt) h

/-- With enough fuel (more than the number of transition targets missing from
the accumulator) and all states known, the closure computation succeeds. -/
theorem eClosure_ok (A : ENFA)
    (hst : ∀ x ∈ A.targets, x ∈ A.states) :
    ∀ (n s : Nat) (cl : Finset Nat), s ∈ A.states →
      (A.targets \ insert s cl).card < n →
      ∃ R, A.eClosure n s cl = .ok R := by
  intro n
  induction n with
  | zero => intro s cl _ h; cases h
  | succ n ih =>
    intro s cl hs hfuel
    simp only [eClosure, if_pos hs]
    -- the auxiliary: walking a list of targets succeeds
    suffices hgen : ∀ (ts : List Nat) (cl' : Finset Nat),
        (∀ t ∈ ts, t ∈ A.targets) → (A.targets \ cl').card ≤ n →
        ∃ R, eClosureList (A.eClosure n) ts cl' = .ok R by
      exact hgen (A.forward s eps) (insert s cl)
        (fun t ht => A.mem_targets_of_forward ht)
        (Nat.lt_succ_iff.mp hfuel)
    intro ts
    induction ts with
    | nil => intro cl' _ _; exact ⟨cl', rfl⟩
    | cons t ts iht =>
      intro cl' hts hfuel'
      simp only [eClosureList]
      by_cases hm : t ∈ cl'
      · simp only [if_pos hm]
        exact iht cl' (fun u hu => hts u (List.mem_cons_of_mem t hu)) hfuel'
      · simp only [if_neg hm]
        have htT : t ∈ A.targets := hts t (List.mem_cons_self t ts)
        have hcard : (A.targets \ insert t cl').card < n := by
          have h1 : A.targets \ insert t cl' = (A.targets \ cl').erase t :=
            Finset.sdiff_insert A.targets cl' t
          have h2 : t ∈ A.targets \ cl' := Finset.mem_sdiff.mpr ⟨htT, hm⟩
          rw [h1, Finset.card_erase_of_mem h2]
          have h3 : 0 < (A.targets \ cl').card := Finset.card_pos.mpr ⟨t, h2⟩
          omega
        obtain ⟨R1, hR1⟩ := ih t cl' (hst t htT) hcard
        rw [hR1]
        refine iht R1 (fun u hu => hts u (List.mem_cons_of_mem t hu)) ?_
        have hsub : insert t cl' ⊆ R1 := eClosure_subset A n t cl' R1 hR1
        have : A.targets \ R1 ⊆ A.targets \ insert t cl' :=
          Finset.sdiff_subset_sdiff (Finset.Subset.refl _) hsub
        exact le_trans (Finset.card_le_card this) (Nat.le_of_lt hcard)

/-! ### Closedness of the computed closure. -/

/-- Every member of `R` is either still in the debt set `D` (not yet
expanded) or has all its epsilon successors inside `R`. -/
def Expanded (A : ENFA) (R D : Finset Nat) : Prop :=
  ∀ x ∈ R, x ∈ D ∨ ∀ t ∈ A.forward x eps, t ∈ R

theorem Expanded.mono_debt (A : ENFA) {R D D' : Finset Nat} (hDD : D ⊆ D')
    (h : A.Expanded R D) : A.Expanded R D' :=
  fun x hx => (h x hx).imp (fun hd => hDD hd) id

theorem Expanded.mono_result (A : ENFA) {R R' D : Finset Nat} (hRR : R ⊆ R')
    (h : A.Expanded R D) (hmem : ∀ x ∈ R', x ∈ R) : A.Expanded R' D := by
  intro x hx
  exact (h x (hmem x hx)).imp id (fun hf t ht => hRR (hf t ht))

theorem eClosureList_expanded
    {A : ENFA} {visit : Nat → Finset Nat → Except String (Finset Nat)}
    (hv : ∀ (t : Nat) (cl R D : Finset Nat), visit t cl = .ok R →
      A.Expanded cl D → A.Expanded R D) :
    ∀ (ts : List Nat) (cl R D : Finset Nat), eClosureList visit ts cl = .ok R →
      A.Expanded cl D → A.Expanded R D := by
  intro ts
  induction ts with
  | nil =>
    intro cl R D h hcl
    simp only [eClosureList, Except.ok.injEq] at h; exact h ▸ hcl
  | cons t ts ih =>
    intro cl R D h hcl
    simp only [eClosureList] at h
    by_cases hm : t ∈ cl
    · simp only [if_pos hm] at h; exact ih cl R D h hcl
    · simp only [if_neg hm] at h
      cases hvt : visit t cl with
      | error e => rw [hvt] at h; cases h
      | ok cl2 => rw [hvt] at h; exact ih cl2 R D h (hv t cl cl2 D hvt hcl)

theorem eClosure_expanded (A : ENFA) :
    ∀ (n s : Nat) (cl R D : Finset Nat), A.eClosure n s cl = .ok R →
      A.Expanded cl D → A.Expanded R (D.erase s) := by
  intro n
  induction n with
  | zero => intro s cl R D h; cases h
  | succ n ih =>
    intro s cl R D h hcl
    simp only [eClosure] at h
    by_cases hst : s ∈ A.states
    · simp only [if_pos hst] at h
      -- the accumulator `insert s cl` is expanded modulo debt `insert s D`
      have hins : A.Expanded (insert s cl) (insert s D) := by
        intro x hx
        rcases Finset.mem_insert.mp hx with rfl | hx'
        · exact Or.inl (Finset.mem_insert_self x D)
        · exact (hcl x hx').imp (fun hd => Finset.mem_insert_of_mem hd)
            (fun hf t ht => Finset.mem_insert_of_mem (hf t ht))
      have hRexp : A.Expanded R (insert s D) :=
        eClosureList_expanded
          (fun t cl' R' D' h' hcl' =>
            Expanded.mono_debt A (Finset.erase_subset t D')
              (ih t cl' R' D' h' hcl'))
          _ _ _ _ h hins
      -- the epsilon successors of `s` all made it into `R`
      have hts : ∀ t ∈ A.forward s eps, t ∈ R :=
        eClosureList_mem_of_mem (fun t cl' R' h' => eClosure_subset A n t cl' R' h')
          _ _ _ h
      intro x hx
      rcases hRexp x hx with hd | hf
      · rcases Finset.mem_insert.mp hd with rfl | hd'
        · exact Or.inr hts
        · by_cases hxs : x = s
          · exact Or.inr (hxs ▸ hts)
          · exact Or.inl (Finset.mem_erase.mpr ⟨hxs, hd'⟩)
      · exact Or.inr hf
    · simp only [if_neg hst] at h; cases h

/-! ### The outer loop over the initial states. -/

theorem eClosuresList_subset (A : ENFA) {fuel : Nat} :
    ∀ (ss : List Nat) (cl R : Finset Nat), A.eClosuresList fuel ss cl = .ok R →
      cl ⊆ R := by
  intro ss
  induction ss with
  | nil => intro cl R h; simp only [eClosuresList, Except.ok.injEq] at h; exact h ▸ Finset.Subset.refl _
  | cons s ss ih =>
    intro cl R h
    simp only [eClosuresList] at h
    cases hs : A.eClosure fuel s cl with
    | error e => rw [hs] at h; cases h
    | ok cl2 =>
      rw [hs] at h
      exact ((Finset.subset_insert s cl).trans
        (eClosure_subset A fuel s cl cl2 hs)).trans (ih cl2 R h)

theorem eClosuresList_min (A : ENFA) {T : Set Nat} (hT : A.EClosed T) {fuel : Nat} :
    ∀ (ss : List Nat) (cl R : Finset Nat), (∀ s ∈ ss, s ∈ T) →
      (↑cl : Set Nat) ⊆ T → A.eClosuresList fuel ss cl = .ok R →
      (↑R : Set Nat) ⊆ T := by
  intro ss
  induction ss with
  | nil =>
    intro cl R _ hcl h
    simp only [eClosuresList, Except.ok.injEq] at h; exact h ▸ hcl
  | cons s ss ih =>
    intro cl R hss hcl h
    simp only [eClosuresList] at h
    cases hs : A.eClosure fuel s cl with
    | error e => rw [hs] at h; cases h
    | ok cl2 =>
      rw [hs] at h
      exact ih cl2 R (fun u hu => hss u (List.mem_cons_of_mem s hu))
        (eClosure_min A hT fuel s cl cl2 (hss s (List.mem_cons_self s ss)) hcl hs) h

theorem eClosuresList_expanded (A : ENFA) {fuel : Nat} :
    ∀ (ss : List Nat) (cl R D : Finset Nat), A.eClosuresList fuel ss cl = .ok R →
      A.Expanded cl D → (∀ d ∈ D, d ∈ ss) → A.Expanded R ∅ := by
  intro ss
  induction ss with
  | nil =>
    intro cl R D h hcl hD
    simp only [eClosuresList, Except.ok.injEq] at h
    subst h
    intro x hx
    rcases hcl x hx with hd | hf
    · cases hD x hd
    · exact Or.inr hf
  | cons s ss ih =>
    intro cl R D h hcl hD
    simp only [eClosuresList] at h
    cases hs : A.eClosure fuel s cl with
    | error e => rw [hs] at h; cases h
    | ok cl2 =>
      rw [hs] at h
      refine ih cl2 R (D.erase s) h (eClosure_expanded A fuel s cl cl2 D hs hcl) ?_
      intro d hd
      have hd2 := Finset.mem_erase.mp hd
      rcases List.mem_cons.mp (hD d hd2.2) with rfl | h'
      · exact absurd rfl hd2.1
      · exact h'

theorem eClosuresList_ok (A : ENFA)
    (hst : ∀ x ∈ A.targets, x ∈ A.states) {fuel : Nat}
    (hfuel : A.targets.card < fuel) :
    ∀ (ss : List Nat) (cl : Finset Nat), (∀ s ∈ ss, s ∈ A.states) →
      ∃ R, A.eClosuresList fuel ss cl = .ok R := by
  intro ss
  induction ss with
  | nil => intro cl _; exact ⟨cl, rfl⟩
  | cons s ss ih =>
    intro cl hss
    simp only [eClosuresList]
    have hcard : (A.targets \ insert s cl).card < fuel :=
      lt_of_le_of_lt (Finset.card_le_card (Finset.sdiff_subset)) hfuel
    obtain ⟨R1, hR1⟩ := eClosure_ok A hst fuel s cl (hss s (List.mem_cons_self s ss)) hcard
    rw [hR1]
    exact ih R1 (fun u hu => hss u (List.mem_cons_of_mem s hu))

/-! ### The specification of `eClosures`. -/

/-- A simple hypothesis bundle: the initial set and all transition targets
are known states. -/
def ClosureWF (A : ENFA) (S : Finset Nat) : Prop :=
  (∀ s ∈ S, s ∈ A.states) ∧ (∀ x ∈ A.targets, x ∈ A.states)

theorem eClosures_ok (A : ENFA) {S : Finset Nat} (h : A.ClosureWF S) :
    ∃ R, A.eClosures S = .ok R := by
  refine eClosuresList_ok A h.2 ?_ (sortedList S) S ?_
  · exact Nat.lt_succ_of_le (targets_card_le A)
  · intro s hs; exact h.1 s (mem_sortedList.mp hs)

theorem eClosures_subset (A : ENFA) {S R : Finset Nat}
    (h : A.eClosures S = .ok R) : S ⊆ R :=
  eClosuresList_subset A _ _ _ h

theorem eClosures_closed (A : ENFA) {S R : Finset Nat}
    (h : A.eClosures S = .ok R) : A.EClosed (↑R : Set Nat) := by
  have hexp : A.Expanded R ∅ := by
    refine eClosuresList_expanded A _ _ _ S h ?_ ?_
    · intro x hx; exact Or.inl hx
    · intro d hd; exact mem_sortedList.mpr hd
  intro s hs t ht
  rcases hexp s hs with hd | hf
  · cases hd
  · exact hf t ht

theorem eClosures_min (A : ENFA) {S R : Finset Nat} {T : Set Nat}
    (hT : A.EClosed T) (hS : ∀ s ∈ S, s ∈ T)
    (h : A.eClosures S = .ok R) : (↑R : Set Nat) ⊆ T := by
  refine eClosuresList_min A hT _ _ _ ?_ ?_ h
  · intro s hs; exact hS s (mem_sortedList.mp hs)
  · intro x hx; exact hS x hx

/-- The computed closure is exactly the set of states epsilon-reachable from
the initial set. -/
theorem eClosures_spec (A : ENFA) {S R : Finset Nat}
    (h : A.eClosures S = .ok R) :
    ∀ x, x ∈ R ↔ ∃ s ∈ S, A.EReach s x := by
  intro x
  constructor
  · intro hx
    have hmin := eClosures_min A (T := {y | ∃ s ∈ S, A.EReach s y})
      (fun y hy t ht => by
        obtain ⟨s, hs, hr⟩ := hy
        exact ⟨s, hs, Relation.ReflTransGen.tail hr ht⟩)
      (fun s hs => ⟨s, hs, Relation.ReflTransGen.refl⟩) h
    exact hmin hx
  · rintro ⟨s, hs, hr⟩
    have hclosed := eClosures_closed A h
    have hsR : s ∈ R := eClosures_subset A h hs
    induction hr with
    | refl => exact hsR
    | tail _ hstep ih => exact hclosed _ ih _ hstep

/-- Idempotence: re-closing the closure returns it unchanged. -/
theorem eClosures_idem (A : ENFA) {S R : Finset Nat}
    (hwf : ∀ x ∈ A.targets, x ∈ A.states) (hS : ∀ s ∈ S, s ∈ A.states)
    (h : A.eClosures S = .ok R) : A.eClosures R = .ok R := by
  have hRstates : ∀ x ∈ R, x ∈ A.states := by
    intro x hx
    exact eClosures_min A (T := {y | y ∈ A.states})
      (fun y _ t ht => hwf t (A.mem_targets_of_forward ht)) hS h hx
  obtain ⟨R2, hR2⟩ := eClosures_ok A (S := R) ⟨hRstates, hwf⟩
  have h1 : R ⊆ R2 := eClosures_subset A hR2
  have h2 : (↑R2 : Set Nat) ⊆ (↑R : Set Nat) :=
    eClosures_min A (eClosures_closed A h) (fun s hs => hs) hR2
  have : R2 = R := Finset.Subset.antisymm (fun x hx => h2 hx) h1
  rw [hR2, this]

/-! ### The execution engine: stepping and checking. -/

/-- The one-character string for `c`; `check` iterates over the characters
of the text, and Python characters are one-character strings. -/
def chStr (c : Char) : String := ⟨[c]⟩

/-- The next-set computation of `NFA._access`: iterate over the sorted
current set and collect all forward successors under `v` (the alias lookup
`self.states[self._get_alias(end.name)]` of the missing base class resolves
a state to itself here). -/
def nextSet (A : ENFA) (cur : Finset Nat) (v : String) : Finset Nat :=
  ((sortedList cur).flatMap (fun s => A.forward s v)).toFinset

/-- `EPSILON_NFA._access(value)`: raise when the symbol is not an input
(`NFA._access`); otherwise the current set becomes the epsilon closure of
the union of the forward sets (`NFA._access` computes the union, then
`_all_closures` closes it). -/
def access (A : ENFA) (cur : Finset Nat) (v : String) : Except String (Finset Nat) :=
  if v ∈ A.inputs then A.eClosures (A.nextSet cur v) else .error "invalid input"

/-- Modelled from the spec: the `accepted` property of the missing
`FiniteAutomaton` base class is true iff the current set intersects the
accept set. -/
def acceptedOn (A : ENFA) (cur : Finset Nat) : Bool :=
  A.accepts.any (fun a => decide (a ∈ cur))

/-- Modelled from the spec: `reset()` of the missing base class sets the
current set to the epsilon closure of the start state (spec section 4.5). -/
def reset (A : ENFA) : Except String (Finset Nat) :=
  A.eClosures {A.startState}

/-- The loop of `RegEx.check`: for each character, return `false` when it is
not a valid character, otherwise `enter` it; at the end query `accepted`. -/
def checkAux (A : ENFA) : Finset Nat → List Char → Except String Bool
  | cur, [] => .ok (A.acceptedOn cur)
  | cur, c :: rest =>
    if chStr c ∈ A.inputs then
      match A.access cur (chStr c) with
      | .error e => .error e
      | .ok cur2 => A.checkAux cur2 rest
    else .ok false

/-- `RegEx.check(text)`: reset, feed the characters, query acceptance. -/
def check (A : ENFA) (text : List Char) : Except String Bool :=
  match A.reset with
  | .error e => .error e
  | .ok cur => A.checkAux cur text

/-! ### Path acceptance semantics. -/

/-- The automaton accepts the word from state `s`: either the word is empty
and `s` is accepting, or an epsilon transition is taken for free, or a
character is consumed along a transition labelled with it. -/
inductive AcceptsFrom (A : ENFA) : Nat → List Char → Prop
  | done {s : Nat} : s ∈ A.accepts → AcceptsFrom A s []
  | eps {s t : Nat} {w : List Char} : t ∈ A.forward s eps →
      AcceptsFrom A t w → AcceptsFrom A s w
  | consume {s t : Nat} {c : Char} {w : List Char} : t ∈ A.forward s (chStr c) →
      AcceptsFrom A t w → AcceptsFrom A s (c :: w)

/-- The automaton accepts the word in full from its start state. -/
def Accepts (A : ENFA) (w : List Char) : Prop :=
  A.AcceptsFrom A.startState w

theorem mem_nextSet (A : ENFA) {cur : Finset Nat} {v : String} {t : Nat} :
    t ∈ A.nextSet cur v ↔ ∃ s ∈ cur, t ∈ A.forward s v := by
  simp only [nextSet, List.mem_toFinset, List.mem_flatMap, mem_sortedList]

theorem targets_subset_states (A : ENFA) (hwf : A.WF) :
    ∀ x ∈ A.targets, x ∈ A.states := by
  intro x hx
  simp only [targets, List.mem_toFinset, List.mem_map] at hx
  obtain ⟨e, he, rfl⟩ := hx
  exact (hwf.2.1 e he).2.1

theorem nextSet_subset_states (A : ENFA) (hwf : A.WF) {cur : Finset Nat}
    {v : String} : ∀ t ∈ A.nextSet cur v, t ∈ A.states := by
  intro t ht
  obtain ⟨s, _, hf⟩ := (mem_nextSet A).mp ht
  exact targets_subset_states A hwf t (A.mem_targets_of_forward hf)

theorem mem_of_EReach_of_closed (A : ENFA) {cur : Finset Nat}
    (hcl : A.EClosed (↑cur : Set Nat)) {s t : Nat} (hs : s ∈ cur)
    (hr : A.EReach s t) : t ∈ cur := by
  induction hr with
  | refl => exact hs
  | tail _ hstep ih => exact hcl _ ih _ hstep

theorem acceptsFrom_prepend (A : ENFA) {s t : Nat} {w : List Char}
    (hr : A.EReach s t) (ha : A.AcceptsFrom t w) : A.AcceptsFrom s w := by
  induction hr using Relation.ReflTransGen.head_induction_on with
  | refl => exact ha
  | head hstep _ ih => exact AcceptsFrom.eps hstep ih

theorem acceptsFrom_nil_inv (A : ENFA) {s : Nat} (h : A.AcceptsFrom s []) :
    ∃ t, A.EReach s t ∧ t ∈ A.accepts := by
  have aux : ∀ (s : Nat) (w : List Char), A.AcceptsFrom s w → w = [] →
      ∃ t, A.EReach s t ∧ t ∈ A.accepts := by
    intro s w h
    induction h with
    | done hs => exact fun _ => ⟨_, Relation.ReflTransGen.refl, hs⟩
    | eps hst _ ih =>
      intro hw
      obtain ⟨t, hr, ha⟩ := ih hw
      exact ⟨t, Relation.ReflTransGen.head hst hr, ha⟩
    | consume _ _ _ => intro hw; cases hw
  exact aux s [] h rfl

theorem acceptsFrom_cons_inv (A : ENFA) {s : Nat} {c : Char} {w : List Char}
    (h : A.AcceptsFrom s (c :: w)) :
    ∃ t u, A.EReach s t ∧ u ∈ A.forward t (chStr c) ∧ A.AcceptsFrom u w := by
  have aux : ∀ (s : Nat) (w' : List Char), A.AcceptsFrom s w' → w' = c :: w →
      ∃ t u, A.EReach s t ∧ u ∈ A.forward t (chStr c) ∧ A.AcceptsFrom u w := by
    intro s w' h
    induction h with
    | done _ => intro hw; cases hw
    | eps hst _ ih =>
      intro hw
      obtain ⟨t, u, hr, hf, ha⟩ := ih hw
      exact ⟨t, u, Relation.ReflTransGen.head hst hr, hf, ha⟩
    | consume hf ha _ =>
      intro hw
      cases hw
      exact ⟨_, _, Relation.ReflTransGen.refl, hf, ha⟩
  exact aux s (c :: w) h rfl

theorem forward_label_mem_inputs (A : ENFA) (hwf : A.WF) {s : Nat}
    {v : String} {t : Nat} (h : t ∈ A.forward s v) : v ∈ A.inputs := by
  simp only [forward, List.mem_map, List.mem_filter] at h
  obtain ⟨e, ⟨he, hc⟩, _⟩ := h
  simp only [decide_eq_true_eq] at hc
  exact hc.2 ▸ (hwf.2.1 e he).2.2

/-- The core equivalence: from a closed current set of known states, the
check loop never raises and returns true exactly when some current state
accepts the remaining word. -/
theorem checkAux_spec (A : ENFA) (hwf : A.WF) :
    ∀ (w : List Char) (cur : Finset Nat), (∀ s ∈ cur, s ∈ A.states) →
      A.EClosed (↑cur : Set Nat) →
      ∃ b, A.checkAux cur w = .ok b ∧ (b = true ↔ ∃ s ∈ cur, A.AcceptsFrom s w) := by
  intro w
  induction w with
  | nil =>
    intro cur _ hcl
    refine ⟨A.acceptedOn cur, rfl, ?_⟩
    simp only [acceptedOn, List.any_eq_true, decide_eq_true_eq]
    constructor
    · rintro ⟨a, ha, hac⟩
      exact ⟨a, hac, AcceptsFrom.done ha⟩
    · rintro ⟨s, hs, hacc⟩
      obtain ⟨t, hr, ht⟩ := acceptsFrom_nil_inv A hacc
      exact ⟨t, ht, mem_of_EReach_of_closed A hcl hs hr⟩
  | cons c rest ih =>
    intro cur hst hcl
    simp only [checkAux]
    by_cases hin : chStr c ∈ A.inputs
    · simp only [if_pos hin]
      have hnext : ∀ t ∈ A.nextSet cur (chStr c), t ∈ A.states :=
        nextSet_subset_states A hwf
      obtain ⟨cur2, hcur2⟩ := eClosures_ok A (S := A.nextSet cur (chStr c))
        ⟨hnext, targets_subset_states A hwf⟩
      have hacc : A.access cur (chStr c) = .ok cur2 := by
        simp only [access, if_pos hin]; exact hcur2
      rw [hacc]
      have hcur2st : ∀ s ∈ cur2, s ∈ A.states := by
        intro s hs
        exact eClosures_min A (T := {y | y ∈ A.states})
          (fun y _ t ht => targets_subset_states A hwf t (A.mem_targets_of_forward ht))
          hnext hcur2 hs
      obtain ⟨b, hb, hbiff⟩ := ih cur2 hcur2st (eClosures_closed A hcur2)
      refine ⟨b, hb, hbiff.trans ?_⟩
      constructor
      · rintro ⟨x, hx, hax⟩
        obtain ⟨u, hu, hr⟩ := (eClosures_spec A hcur2 x).mp hx
        obtain ⟨t, ht, hf⟩ := (mem_nextSet A).mp hu
        exact ⟨t, ht, AcceptsFrom.consume hf (acceptsFrom_prepend A hr hax)⟩
      · rintro ⟨t, ht, hacc2⟩
        obtain ⟨t2, u, hr, hf, ha⟩ := acceptsFrom_cons_inv A hacc2
        have ht2 : t2 ∈ cur := mem_of_EReach_of_closed A hcl ht hr
        have hu : u ∈ A.nextSet cur (chStr c) := (mem_nextSet A).mpr ⟨t2, ht2, hf⟩
        exact ⟨u, eClosures_subset A hcur2 hu, ha⟩
    · simp only [if_neg hin]
      refine ⟨false, rfl, ?_⟩
      constructor
      · intro h; cases h
      · rintro ⟨s, _, hacc2⟩
        obtain ⟨_, _, _, hf, _⟩ := acceptsFrom_cons_inv A hacc2
        exact absurd (forward_label_mem_inputs A hwf hf) hin

/-- `check` on a well-formed automaton never raises, and returns true
exactly when the automaton accepts the text in full. -/
theorem check_spec (A : ENFA) (hwf : A.WF) (w : List Char) :
    ∃ b, A.check w = .ok b ∧ (b = true ↔ A.Accepts w) := by
  obtain ⟨S0, hS0⟩ := eClosures_ok A (S := ({A.startState} : Finset Nat))
    ⟨by intro s hs
        rw [Finset.mem_singleton] at hs
        exact hs ▸ hwf.1,
     targets_subset_states A hwf⟩
  have hS0st : ∀ s ∈ S0, s ∈ A.states := by
    intro s hs
    refine eClosures_min A (T := {y | y ∈ A.states})
      (fun y _ t ht => targets_subset_states A hwf t (A.mem_targets_of_forward ht))
      ?_ hS0 hs
    intro u hu
    rw [Finset.mem_singleton] at hu
    exact hu ▸ hwf.1
  obtain ⟨b, hb, hiff⟩ := checkAux_spec A hwf w S0 hS0st (eClosures_closed A hS0)
  refine ⟨b, ?_, hiff.trans ?_⟩
  · simp only [check, reset, hS0]; exact hb
  · constructor
    · rintro ⟨s, hs, h⟩
      obtain ⟨s0, hs0, hr⟩ := (eClosures_spec A hS0 s).mp hs
      rw [Finset.mem_singleton] at hs0
      subst hs0
      exact acceptsFrom_prepend A hr h
    · intro h
      exact ⟨A.startState, eClosures_subset A hS0 (Finset.mem_singleton_self _), h⟩

/-- An invalid character anywhere in the text makes the check loop return a
clean false. -/
theorem checkAux_invalid (A : ENFA) (hwf : A.WF) {c : Char}
    (hnin : chStr c ∉ A.inputs) :
    ∀ (w : List Char) (cur : Finset Nat), (∀ s ∈ cur, s ∈ A.states) →
      c ∈ w → A.checkAux cur w = .ok false := by
  intro w
  induction w with
  | nil => intro cur _ hc; cases hc
  | cons c2 rest ih =>
    intro cur hst hc
    simp only [checkAux]
    by_cases hin : chStr c2 ∈ A.inputs
    · simp only [if_pos hin]
      have hnext : ∀ t ∈ A.nextSet cur (chStr c2), t ∈ A.states :=
        nextSet_subset_states A hwf
      obtain ⟨cur2, hcur2⟩ := eClosures_ok A (S := A.nextSet cur (chStr c2))
        ⟨hnext, targets_subset_states A hwf⟩
      have hacc : A.access cur (chStr c2) = .ok cur2 := by
        simp only [access, if_pos hin]; exact hcur2
      rw [hacc]
      have hcur2st : ∀ s ∈ cur2, s ∈ A.states := by
        intro s hs
        exact eClosures_min A (T := {y | y ∈ A.states})
          (fun y _ t ht => targets_subset_states A hwf t (A.mem_targets_of_forward ht))
          hnext hcur2 hs
      rcases List.mem_cons.mp hc with rfl | hc'
      · exact absurd hin hnin
      · exact ih cur2 hcur2st hc'
    · simp only [if_neg hin]

/-- `check` returns a clean false (no exception) whenever the text contains
a character outside the valid characters. -/
theorem check_invalid_char (A : ENFA) (hwf : A.WF) {w : List Char} {c : Char}
    (hc : c ∈ w) (hnin : chStr c ∉ A.inputs) : A.check w = .ok false := by
  obtain ⟨S0, hS0⟩ := eClosures_ok A (S := ({A.startState} : Finset Nat))
    ⟨by intro s hs
        rw [Finset.mem_singleton] at hs
        exact hs ▸ hwf.1,
     targets_subset_states A hwf⟩
  have hS0st : ∀ s ∈ S0, s ∈ A.states := by
    intro s hs
    refine eClosures_min A (T := {y | y ∈ A.states})
      (fun y _ t ht => targets_subset_states A hwf t (A.mem_targets_of_forward ht))
      ?_ hS0 hs
    intro u hu
    rw [Finset.mem_singleton] at hu
    exact hu ▸ hwf.1
  simp only [check, reset, hS0]
  exact checkAux_invalid A hwf hnin w S0 hS0st hc

/-! ### Composition operations.

The `EpsilonNFA` value type (factory, union `+`, concatenation `*`,
`kleene_operator`, `deepcopy`) is not part of the source tree; the
operations below are modelled from spec section 4.2.  Alias renaming draws
fresh identifiers by shifting the right operand past the largest identifier
of the left operand. -/

/-- Every identifier mentioned by the automaton. -/
def allIds (A : ENFA) : List Nat :=
  A.startState :: (A.states ++ A.accepts ++ A.trans.map (fun e => e.1) ++
    A.trans.map (fun e => e.2.2))

/-- The largest identifier; fresh identifiers start above it. -/
def maxId (A : ENFA) : Nat := A.allIds.foldr max 0

/-- Modelled from the spec: alias renaming, realised as a uniform shift of
all state identifiers. -/
def shift (A : ENFA) (k : Nat) : ENFA where
  states := A.states.map (· + k)
  inputs := A.inputs
  startState := A.startState + k
  accepts := A.accepts.map (· + k)
  trans := A.trans.map (fun e => (e.1 + k, e.2.1, e.2.2 + k))

/-- Modelled from the spec: Thompson union (`EpsilonNFA.__add__`).  A fresh
start state has epsilon transitions to both renamed starts; every renamed
accept gets an epsilon transition to a fresh accept, the sole accept of the
result. -/
def unionA (A B : ENFA) : ENFA :=
  let B2 := B.shift (A.maxId + 1)
  let ns := max A.maxId B2.maxId + 1
  let na := ns + 1
  { states := A.states ++ B2.states ++ [ns, na]
    inputs := A.inputs ++ B.inputs
    startState := ns
    accepts := [na]
    trans := A.trans ++ B2.trans ++
      [(ns, eps, A.startState), (ns, eps, B2.startState)] ++
      A.accepts.map (fun a => (a, eps, na)) ++
      B2.accepts.map (fun a => (a, eps, na)) }

/-- Modelled from the spec: concatenation (`EpsilonNFA.__mul__`).  Every
renamed accept of the left operand gets an epsilon transition to the renamed
start of the right operand. -/
def concatA (A B : ENFA) : ENFA :=
  let B2 := B.shift (A.maxId + 1)
  { states := A.states ++ B2.states
    inputs := A.inputs ++ B.inputs
    startState := A.startState
    accepts := B2.accepts
    trans := A.trans ++ B2.trans ++
      A.accepts.map (fun a => (a, eps, B2.startState)) }

/-- Modelled from the spec: Kleene closure (`EpsilonNFA.kleene_operator`).
Fresh start and accept; epsilon transitions new-start to old start, new-start
to new-accept, every old accept to new-start and to new-accept. -/
def kleeneA (A : ENFA) : ENFA :=
  let ns := A.maxId + 1
  let na := ns + 1
  { states := A.states ++ [ns, na]
    inputs := A.inputs
    startState := ns
    accepts := [na]
    trans := A.trans ++ [(ns, eps, A.startState), (ns, eps, na)] ++
      A.accepts.map (fun a => (a, eps, ns)) ++
      A.accepts.map (fun a => (a, eps, na)) }

/-- Modelled from the spec: deep copy (`EpsilonNFA.deepcopy`): an
independent automaton with freshly named but isomorphic states. -/
def deepcopyA (A : ENFA) : ENFA := A.shift (A.maxId + 1)

/-- Modelled from the spec: the primitive single-symbol automaton built by
`EpsilonNFA.factory` from the text templates of `operators.py` (start state,
accept state, one transition labelled by the symbol; `EPSILON_NFA.__init__`
adds the epsilon symbol to the inputs). -/
def primAut (v : String) : ENFA where
  states := [0, 1]
  inputs := [v, eps]
  startState := 0
  accepts := [1]
  trans := [(0, v, 1)]

/-- The characters of the collation range: `chr(i)` for
`i in range(ord(first), ord(last) + 1)` (`Collation.all_characters`). -/
def rangeChars (lo hi : Char) : List Char :=
  (List.range' lo.toNat (hi.toNat + 1 - lo.toNat)).map Char.ofNat

/-- The automaton built by `Collation.execute`: states `c0, c1`, one
transition per character of the range, accept `c1`, start `c0` (the factory
itself is not in the source tree; the text it is fed is generated in
`Collation.execute`, and the epsilon symbol is added to the inputs by
`EPSILON_NFA.__init__`). -/
def collAut (lo hi : Char) : ENFA where
  states := [0, 1]
  inputs := (rangeChars lo hi).map chStr ++ [eps]
  startState := 0
  accepts := [1]
  trans := (rangeChars lo hi).map (fun c => (0, chStr c, 1))

/-- The automaton built by the character branch of `QuestionMark.execute`.
The source passes its text template to the factory without calling
`.format`, so the literal symbol `"{0}"` — not the operand — labels the
transition and is the sole non-epsilon input. -/
def qmCharAut : ENFA where
  states := [0, 1]
  inputs := ["{0}", eps]
  startState := 0
  accepts := [1]
  trans := [(0, "{0}", 1), (0, eps, 1)]

/-- The one-state automaton the operator branch of `QuestionMark.execute`
builds twice (`factory` on a single state named `qm`, no transitions). -/
def qmStartAut : ENFA where
  states := [0]
  inputs := [eps]
  startState := 0
  accepts := [0]
  trans := []

end ENFA

namespace ENFA

/-- Well-formedness together with the epsilon symbol being an input (which
`EPSILON_NFA.__init__` guarantees for every automaton the engine builds). -/
def WFe (A : ENFA) : Prop := A.WF ∧ eps ∈ A.inputs

theorem WF_shift {A : ENFA} (hwf : A.WF) (k : Nat) : (A.shift k).WF := by
  obtain ⟨h1, h2, h3⟩ := hwf
  refine ⟨?_, ?_, ?_⟩
  · exact List.mem_map.mpr ⟨A.startState, h1, rfl⟩
  · intro e he
    obtain ⟨e0, he0, rfl⟩ := List.mem_map.mp he
    obtain ⟨ha, hb, hc⟩ := h2 e0 he0
    exact ⟨List.mem_map.mpr ⟨e0.1, ha, rfl⟩, List.mem_map.mpr ⟨e0.2.2, hb, rfl⟩, hc⟩
  · intro a ha
    obtain ⟨a0, ha0, rfl⟩ := List.mem_map.mp ha
    exact List.mem_map.mpr ⟨a0, h3 a0 ha0, rfl⟩

theorem WFe_shift {A : ENFA} (hwf : A.WFe) (k : Nat) : (A.shift k).WFe :=
  ⟨WF_shift hwf.1 k, hwf.2⟩

theorem WFe_unionA {A B : ENFA} (hA : A.WFe) (hB : B.WFe) : (A.unionA B).WFe := by
  obtain ⟨⟨hA1, hA2, hA3⟩, hAe⟩ := hA
  obtain ⟨⟨hB1, hB2, hB3⟩, hBe⟩ := hB
  obtain ⟨hB1s, hB2s, hB3s⟩ := WF_shift (A := B) ⟨hB1, hB2, hB3⟩ (A.maxId + 1)
  refine ⟨⟨?_, ?_, ?_⟩, ?_⟩
  · simp [unionA]
  · intro e he
    simp only [unionA, List.mem_append, List.mem_cons, List.mem_map,
      List.mem_singleton, List.not_mem_nil, or_false] at he
    rcases he with (((he | he) | rfl | rfl) | ⟨a, ha, rfl⟩) | ⟨a, ha, rfl⟩
    · obtain ⟨h1, h2, h3⟩ := hA2 e he
      refine ⟨?_, ?_, ?_⟩ <;>
        simp only [unionA, List.mem_append, List.mem_cons, List.mem_singleton,
          List.not_mem_nil, or_false] <;> tauto
    · obtain ⟨h1, h2, h3⟩ := hB2s e he
      refine ⟨?_, ?_, ?_⟩ <;>
        simp only [unionA, List.mem_append, List.mem_cons, List.mem_singleton,
          List.not_mem_nil, or_false] <;> tauto
    · refine ⟨?_, ?_, ?_⟩ <;>
        simp only [unionA, List.mem_append, List.mem_cons, List.mem_singleton,
          List.not_mem_nil, or_false] <;> tauto
    · refine ⟨?_, ?_, ?_⟩ <;>
        simp only [unionA, List.mem_append, List.mem_cons, List.mem_singleton,
          List.not_mem_nil, or_false] <;> tauto
    · have := hA3 a ha
      refine ⟨?_, ?_, ?_⟩ <;>
        simp only [unionA, List.mem_append, List.mem_cons, List.mem_singleton,
          List.not_mem_nil, or_false] <;> tauto
    · have := hB3s a ha
      refine ⟨?_, ?_, ?_⟩ <;>
        simp only [unionA, List.mem_append, List.mem_cons, List.mem_singleton,
          List.not_mem_nil, or_false] <;> tauto
  · intro a ha
    simp only [unionA, List.mem_singleton] at ha
    subst ha
    simp [unionA]
  · simp only [unionA, List.mem_append]
    exact Or.inl hAe

theorem WFe_concatA {A B : ENFA} (hA : A.WFe) (hB : B.WFe) : (A.concatA B).WFe := by
  obtain ⟨⟨hA1, hA2, hA3⟩, hAe⟩ := hA
  obtain ⟨⟨hB1, hB2, hB3⟩, hBe⟩ := hB
  obtain ⟨hB1s, hB2s, hB3s⟩ := WF_shift (A := B) ⟨hB1, hB2, hB3⟩ (A.maxId + 1)
  refine ⟨⟨?_, ?_, ?_⟩, ?_⟩
  · simp only [concatA, List.mem_append]
    exact Or.inl hA1
  · intro e he
    simp only [concatA, List.mem_append, List.mem_map] at he
    rcases he with (he | he) | ⟨a, ha, rfl⟩
    · obtain ⟨h1, h2, h3⟩ := hA2 e he
      refine ⟨?_, ?_, ?_⟩ <;> simp only [concatA, List.mem_append] <;> tauto
    · obtain ⟨h1, h2, h3⟩ := hB2s e he
      refine ⟨?_, ?_, ?_⟩ <;> simp only [concatA, List.mem_append] <;> tauto
    · have := hA3 a ha
      refine ⟨?_, ?_, ?_⟩ <;> simp only [concatA, List.mem_append] <;> tauto
  · intro a ha
    simp only [concatA] at ha
    simp only [concatA, List.mem_append]
    exact Or.inr (hB3s a ha)
  · simp only [concatA, List.mem_append]
    exact Or.inl hAe

theorem WFe_kleeneA {A : ENFA} (hA : A.WFe) : A.kleeneA.WFe := by
  obtain ⟨⟨hA1, hA2, hA3⟩, hAe⟩ := hA
  refine ⟨⟨?_, ?_, ?_⟩, ?_⟩
  · simp [kleeneA]
  · intro e he
    simp only [kleeneA, List.mem_append, List.mem_cons, List.mem_map,
      List.mem_singleton, List.not_mem_nil, or_false] at he
    rcases he with ((he | rfl | rfl) | ⟨a, ha, rfl⟩) | ⟨a, ha, rfl⟩
    · obtain ⟨h1, h2, h3⟩ := hA2 e he
      refine ⟨?_, ?_, ?_⟩ <;>
        simp only [kleeneA, List.mem_append, List.mem_cons, List.mem_singleton,
          List.not_mem_nil, or_false] <;> tauto
    · refine ⟨?_, ?_, ?_⟩ <;>
        simp only [kleeneA, List.mem_append, List.mem_cons, List.mem_singleton,
          List.not_mem_nil, or_false] <;> tauto
    · refine ⟨?_, ?_, ?_⟩ <;>
        simp only [kleeneA, List.mem_append, List.mem_cons, List.mem_singleton,
          List.not_mem_nil, or_false] <;> tauto
    · have := hA3 a ha
      refine ⟨?_, ?_, ?_⟩ <;>
        simp only [kleeneA, List.mem_append, List.mem_cons, List.mem_singleton,
          List.not_mem_nil, or_false] <;> tauto
    · have := hA3 a ha
      refine ⟨?_, ?_, ?_⟩ <;>
        simp only [kleeneA, List.mem_append, List.mem_cons, List.mem_singleton,
          List.not_mem_nil, or_false] <;> tauto
  · intro a ha
    simp only [kleeneA, List.mem_singleton] at ha
    subst ha
    simp [kleeneA]
  · exact hAe

theorem WFe_deepcopyA {A : ENFA} (hA : A.WFe) : A.deepcopyA.WFe :=
  WFe_shift hA _

theorem WFe_primAut (v : String) : (primAut v).WFe := by
  refine ⟨⟨?_, ?_, ?_⟩, ?_⟩ <;> simp [primAut, WF]

theorem WFe_collAut (lo hi : Char) : (collAut lo hi).WFe := by
  refine ⟨⟨?_, ?_, ?_⟩, ?_⟩
  · simp [collAut]
  · intro e he
    simp only [collAut, List.mem_map] at he
    obtain ⟨c, hc, rfl⟩ := he
    refine ⟨by simp [collAut], by simp [collAut], ?_⟩
    simp only [collAut, List.mem_append, List.mem_map]
    exact Or.inl ⟨c, hc, rfl⟩
  · intro a ha
    simp only [collAut, List.mem_singleton] at ha
    subst ha
    simp [collAut]
  · simp [collAut]

theorem WFe_qmCharAut : qmCharAut.WFe := by
  refine ⟨⟨?_, ?_, ?_⟩, ?_⟩ <;> simp [qmCharAut, WF, eps]

theorem WFe_qmStartAut : qmStartAut.WFe := by
  refine ⟨⟨?_, ?_, ?_⟩, ?_⟩ <;> simp [qmStartAut, WF]

end ENFA

/-- The operator tree.  Character operands of the alternation,
concatenation and Kleene operators denote the same primitive single-symbol
automaton that the (spec-modelled) `Single` operator produces, so the
embedding stores them as `single`; `QuestionMark` distinguishes the two
operand kinds because its two source branches build different automata. -/
inductive Op where
  | single (c : Char)
  | coll (lo hi : Char)
  | alt (x y : Op)
  | cat (x y : Op)
  | star (x : Op)
  | plus (x : Op)
  | qmarkCh (c : Char)
  | qmarkOp (x : Op)

namespace Op

/-- `execute()` of each operator node (`operators.py`): `Alternation` is
union, `Concatenation` is concatenation, `KleeneStar` is Kleene closure,
`KleenePlus` is `deepcopy() * kleene_operator()`, `QuestionMark` over an
operator is the idiosyncratic `start * end + item` composition; character
operands become the primitive automaton. -/
def execute : Op → ENFA
  | single c => ENFA.primAut (ENFA.chStr c)
  | coll lo hi => ENFA.collAut lo hi
  | alt x y => ENFA.unionA x.execute y.execute
  | cat x y => ENFA.concatA x.execute y.execute
  | star x => ENFA.kleeneA x.execute
  | plus x => ENFA.concatA (ENFA.deepcopyA x.execute) (ENFA.kleeneA x.execute)
  | qmarkCh _ => ENFA.qmCharAut
  | qmarkOp x =>
    ENFA.unionA (ENFA.concatA ENFA.qmStartAut (ENFA.deepcopyA ENFA.qmStartAut))
      x.execute

/-- Every automaton an operator tree produces is well-formed and has the
epsilon symbol among its inputs. -/
theorem execute_WFe : ∀ o : Op, o.execute.WFe := by
  intro o
  induction o with
  | single c => exact ENFA.WFe_primAut _
  | coll lo hi => exact ENFA.WFe_collAut lo hi
  | alt x y ihx ihy => exact ENFA.WFe_unionA ihx ihy
  | cat x y ihx ihy => exact ENFA.WFe_concatA ihx ihy
  | star x ih => exact ENFA.WFe_kleeneA ih
  | plus x ih =>
    exact ENFA.WFe_concatA (ENFA.WFe_deepcopyA ih) (ENFA.WFe_kleeneA ih)
  | qmarkCh c => exact ENFA.WFe_qmCharAut
  | qmarkOp x ih =>
    exact ENFA.WFe_unionA
      (ENFA.WFe_concatA ENFA.WFe_qmStartAut
        (ENFA.WFe_deepcopyA ENFA.WFe_qmStartAut)) ih

end Op


/-! ## The regex parser (`regular_expressions.py`). -/

/-- Python error kinds observable during compilation.  `valueError` carries
its message (the parse errors of the spec are `ValueError`s);
`operatorInputTypeError` is the distinct error kind of spec section 7 raised
by `Operator._check_type_err` (its class lives in the missing `misc.errors`
module). -/
inductive PyErr where
  | valueError (msg : String)
  | typeError
  | indexError
  | operatorInputTypeError
  deriving Repr, DecidableEq

/-- An item of the parser's group lists: a raw character, a nested group
(Python list), or an operator node. -/
inductive Item where
  | ch (c : Char)
  | sub (l : List Item)
  | op (o : Op)

namespace Py

/-- Python index normalisation: a negative index counts from the end. -/
def normIdx (n : Nat) (i : Int) : Int := if i < 0 then (n : Int) + i else i

/-- Python `l[i]`: `IndexError` when out of range. -/
def getItem {α : Type} (l : List α) (i : Int) : Except PyErr α :=
  let j := normIdx l.length i
  if h : 0 ≤ j ∧ j < (l.length : Int) then
    .ok (l.get ⟨j.toNat, by omega⟩)
  else .error .indexError

/-- Python `l[i] = x`: `IndexError` when out of range. -/
def setItem {α : Type} (l : List α) (i : Int) (x : α) : Except PyErr (List α) :=
  let j := normIdx l.length i
  if 0 ≤ j ∧ j < (l.length : Int) then .ok (l.set j.toNat x)
  else .error .indexError

/-- Python slice-bound clamping. -/
def clamp (n : Nat) (i : Int) : Nat :=
  if i < 0 then ((n : Int) + i).toNat else min i.toNat n

/-- Python `l[a:b]`. -/
def slice {α : Type} (l : List α) (a b : Int) : List α :=
  (l.take (clamp l.length b)).drop (clamp l.length a)

/-- Python slice assignment `l[a:b] = v` (step 1): replace the slice by `v`;
when the normalised end lies before the start the replaced slice is empty
and `v` is inserted at the start position. -/
def setSlice {α : Type} (l : List α) (a b : Int) (v : List α) : List α :=
  let a2 := clamp l.length a
  let b2 := clamp l.length b
  l.take a2 ++ v ++ l.drop (max a2 b2)

/-- Every other element, realising a step-2 slice after clamping. -/
def everyOther {α : Type} : List α → List α
  | [] => []
  | [x] => [x]
  | x :: _ :: rest => x :: everyOther rest

/-- Python `l[a:b:2]`. -/
def sliceStep2 {α : Type} (l : List α) (a b : Int) : List α :=
  everyOther ((l.take (clamp l.length b)).drop (clamp l.length a))

end Py

namespace RegEx

/-- Modelled from the spec: the `Single` operator class (missing from the
source tree) wraps one character (spec section 4.2, primitive single-symbol
automaton); a non-character operand is outside its kind and raises the
operand-type error (spec section 7). -/
def mkSingle : Item → Except PyErr Op
  | .ch c => .ok (.single c)
  | _ => .error .operatorInputTypeError

/-- `Collation.__init__`: `_item_types = {str}`, so any operand that is not
a character raises `OperatorInputTypeError` via `_check_type_err`. -/
def mkCollation : Item → Item → Except PyErr Op
  | .ch a, .ch b => .ok (.coll a b)
  | _, _ => .error .operatorInputTypeError

/-- A source operand of the non-collation operators (`str` or `Operator`);
a list operand is outside the declared kinds. -/
def toOperand : Item → Option Op
  | .ch c => some (.single c)
  | .op o => some o
  | .sub _ => none

/-- `Alternation.__init__` (`_item_types = {str, Operator}`). -/
def mkAlternation (x y : Item) : Except PyErr Op :=
  match toOperand x, toOperand y with
  | some a, some b => .ok (.alt a b)
  | _, _ => .error .operatorInputTypeError

/-- `Concatenation.__init__` (`_item_types = {str, Operator}`). -/
def mkConcatenation (x y : Item) : Except PyErr Op :=
  match toOperand x, toOperand y with
  | some a, some b => .ok (.cat a b)
  | _, _ => .error .operatorInputTypeError

/-- The unary-operator constructors (`KleenePlus`, `QuestionMark`,
`KleeneStar`), dispatched from `RegEx.unary_operators`; all have
`_item_types = {str, Operator}`. -/
def mkUnary (c : Char) : Item → Except PyErr Op
  | .sub _ => .error .operatorInputTypeError
  | .ch x =>
    .ok (if c = '*' then .star (.single x)
         else if c = '+' then .plus (.single x)
         else .qmarkCh x)
  | .op o =>
    .ok (if c = '*' then .star o
         else if c = '+' then .plus o
         else .qmarkOp o)

/-- The loop of `RegEx._extract_bracket`: scan the text, count unescaped
parentheses, remember the first unmatched `(` and the last unescaped `)`,
and extract `text[lpar+1:rpar]` recursively whenever the count returns to
zero with both indices set.  Escaped parentheses are appended as literal
characters and skip the group check (`continue`). -/
def extractGo (extractRec : List Char → Except PyErr (List Item))
    (text : List Char) :
    List Char → Nat → Int → Int → Int → List Item → Except PyErr (List Item)
  | [], _, parCount, _, _, result =>
    if parCount ≠ 0 then .error (.valueError "Unbalanced parentheses.")
    else .ok result
  | c :: rest, i, parCount, lpar, rpar, result =>
    if c = '(' then
      if 0 < i ∧ text.get? (i - 1) = some '\\' then
        extractGo extractRec text rest (i + 1) parCount lpar rpar
          (result ++ [.ch c])
      else
        let parCount := parCount + 1
        let lpar := if lpar = -1 then (i : Int) else lpar
        if parCount = 0 ∧ 0 ≤ lpar ∧ 0 ≤ rpar then
          match extractRec (Py.slice text (lpar + 1) rpar) with
          | .error e => .error e
          | .ok subL =>
            extractGo extractRec text rest (i + 1) parCount (-1) (-1)
              (result ++ [.sub subL])
        else extractGo extractRec text rest (i + 1) parCount lpar rpar result
    else if c = ')' then
      if 0 < i ∧ text.get? (i - 1) = some '\\' then
        extractGo extractRec text rest (i + 1) parCount lpar rpar
          (result ++ [.ch c])
      else
        let parCount := parCount - 1
        let rpar := (i : Int)
        if parCount = 0 ∧ 0 ≤ lpar ∧ 0 ≤ rpar then
          match extractRec (Py.slice text (lpar + 1) rpar) with
          | .error e => .error e
          | .ok subL =>
            extractGo extractRec text rest (i + 1) parCount (-1) (-1)
              (result ++ [.sub subL])
        else extractGo extractRec text rest (i + 1) parCount lpar rpar result
    else
      let result := if 0 ≤ lpar then result else result ++ [.ch c]
      if parCount = 0 ∧ 0 ≤ lpar ∧ 0 ≤ rpar then
        match extractRec (Py.slice text (lpar + 1) rpar) with
        | .error e => .error e
        | .ok subL =>
          extractGo extractRec text rest (i + 1) parCount (-1) (-1)
            (result ++ [.sub subL])
      else extractGo extractRec text rest (i + 1) parCount lpar rpar result

/-- `RegEx._extract_bracket` with a recursion bound (the recursion descends
into strictly shorter substrings, so any fuel above the text length is
enough). -/
def extractBracket : Nat → List Char → Except PyErr (List Item)
  | 0, _ => .error (.valueError "recursion limit")
  | n + 1, text => extractGo (extractBracket n) text text 0 0 (-1) (-1) []

/-- The loop of `RegEx._escape_characters`: break once the index reaches the
compressed length; at each `\\` wrap the following copied item in `Single`
and compress the pair. -/
def escapeGo (orig : List Item) :
    List Item → Nat → Nat → List Item → Except PyErr (List Item)
  | [], _, _, copied => .ok copied
  | it :: rest, i, comp, copied =>
    if (orig.length : Int) - comp ≤ i then .ok copied
    else
      match it with
      | .ch c =>
        if c = '\\' then do
          let x ← Py.getItem copied ((i : Int) + 1 - comp)
          let o ← mkSingle x
          let copied := Py.setSlice copied ((i : Int) - comp)
            ((i : Int) + 2 - comp) [.op o]
          escapeGo orig rest (i + 1) (comp + 1) copied
        else escapeGo orig rest (i + 1) comp copied
      | _ => escapeGo orig rest (i + 1) comp copied

/-- `Collation(*args)`: a splat of other than two arguments is a
`TypeError`; two arguments go through the constructor's type check. -/
def collArgs : List Item → Except PyErr Op
  | [x, y] => mkCollation x y
  | _ => .error .typeError

/-- The loop of `RegEx._collate`: remember the last `[` and the last `-`;
at each `]`, if a `-` has ever been seen build a `Collation` from the step-2
slice between the brackets, otherwise raise the collation parse error. -/
def collateGo (orig : List Item) :
    List Item → Nat → Int → Int → Nat → List Item → Except PyErr (List Item)
  | [], _, _, _, _, copied => .ok copied
  | it :: rest, i, lpar, dash, comp, copied =>
    match it with
    | .ch c =>
      if c = '[' then collateGo orig rest (i + 1) (i : Int) dash comp copied
      else if c = '-' then collateGo orig rest (i + 1) lpar (i : Int) comp copied
      else if c = ']' then
        if dash ≠ -1 then do
          let o ← collArgs
            (Py.sliceStep2 copied (lpar + 1 - comp) ((i : Int) - comp))
          let copied := Py.setSlice copied (lpar - comp) ((i : Int) + 1 - comp)
            [.op o]
          collateGo orig rest (i + 1) lpar dash (comp + 4) copied
        else .error (.valueError "Collation parsing failed, missing - character")
      else collateGo orig rest (i + 1) lpar dash comp copied
    | _ => collateGo orig rest (i + 1) lpar dash comp copied

/-- The loop of `RegEx._process_sublists`: replace every nested list by the
operator obtained from processing it. -/
def sublistsGo (rec : List Item → Except PyErr Op) :
    List Item → Nat → List Item → Except PyErr (List Item)
  | [], _, copied => .ok copied
  | it :: rest, i, copied =>
    match it with
    | .sub l => do
      let o ← rec l
      let copied ← Py.setItem copied (i : Int) (.op o)
      sublistsGo rec rest (i + 1) copied
    | _ => sublistsGo rec rest (i + 1) copied

/-- The loop of `RegEx._to_unary_operators`: wrap the copied item preceding
each `*`, `?` or `+` in the corresponding unary operator node. -/
def unaryGo (rec : List Item → Except PyErr Op) :
    List Item → Nat → Nat → List Item → Except PyErr (List Item)
  | [], _, _, copied => .ok copied
  | it :: rest, i, comp, copied =>
    match it with
    | .sub l => do
      let o ← rec l
      let copied ← Py.setItem copied ((i : Int) - comp) (.op o)
      unaryGo rec rest (i + 1) comp copied
    | .ch c =>
      if c = '+' ∨ c = '?' ∨ c = '*' then do
        let x ← Py.getItem copied ((i : Int) - 1 - comp)
        let o ← mkUnary c x
        let copied := Py.setSlice copied ((i : Int) - 1 - comp)
          ((i : Int) + 1 - comp) [.op o]
        unaryGo rec rest (i + 1) (comp + 1) copied
      else unaryGo rec rest (i + 1) comp copied
    | .op _ => unaryGo rec rest (i + 1) comp copied

/-- Is the item one of the binary-operator keys (`'|'`; the empty-string key
cannot be an item)?  Membership of an operator node in the dictionary is
false; a nested list is unhashable. -/
def itemBinary : Item → Except PyErr Bool
  | .ch c => .ok (c = '|')
  | .op _ => .ok false
  | .sub _ => .error .typeError

/-- The loop of `RegEx._concatenate`: combine each adjacent pair where
neither the item nor the following original item is a binary-operator
symbol; a missing following item counts as the empty string, which is a
binary-operator key. -/
def concatGo (rec : List Item → Except PyErr Op) :
    List Item → Nat → Nat → List Item → Except PyErr (List Item)
  | [], _, _, copied => .ok copied
  | it :: rest, i, comp, copied =>
    match it with
    | .sub l => do
      let o ← rec l
      let copied ← Py.setItem copied ((i : Int) - comp) (.op o)
      concatGo rec rest (i + 1) comp copied
    | _ => do
      let ib ← itemBinary it
      if ib then concatGo rec rest (i + 1) comp copied
      else do
        let nb ← (match rest with
                  | [] => .ok true
                  | nxt :: _ => itemBinary nxt)
        if nb then concatGo rec rest (i + 1) comp copied
        else do
          let x ← Py.getItem copied ((i : Int) - comp)
          let y ← Py.getItem copied ((i : Int) + 1 - comp)
          let o ← mkConcatenation x y
          let copied := Py.setSlice copied ((i : Int) - comp)
            ((i : Int) + 2 - comp) [.op o]
          concatGo rec rest (i + 1) (comp + 1) copied

/-- The loop of `RegEx._alternate`: combine each `left | right` triple. -/
def alternateGo (rec : List Item → Except PyErr Op) :
    List Item → Nat → Nat → List Item → Except PyErr (List Item)
  | [], _, _, copied => .ok copied
  | it :: rest, i, comp, copied =>
    match it with
    | .sub l => do
      let o ← rec l
      let copied ← Py.setItem copied ((i : Int) - comp) (.op o)
      alternateGo rec rest (i + 1) comp copied
    | _ => do
      let ib ← itemBinary it
      if ib then do
        let x ← Py.getItem copied ((i : Int) - 1 - comp)
        let y ← Py.getItem copied ((i : Int) + 1 - comp)
        let o ← mkAlternation x y
        let copied := Py.setSlice copied ((i : Int) - 1 - comp)
          ((i : Int) + 2 - comp) [.op o]
        alternateGo rec rest (i + 1) (comp + 2) copied
      else alternateGo rec rest (i + 1) comp copied

/-- `RegEx._clean`: wrap residual raw characters in `Single`. -/
def cleanPass (l : List Item) : List Item :=
  l.map (fun it => match it with | .ch c => .op (.single c) | x => x)

/-- `RegEx._escape_characters` applied to a group. -/
def escapePass (g : List Item) : Except PyErr (List Item) := escapeGo g g 0 0 g

/-- `RegEx._collate` applied to a group. -/
def collatePass (g : List Item) : Except PyErr (List Item) :=
  collateGo g g 0 (-1) (-1) 0 g

/-- `RegEx._process`: the pass pipeline, the residual-group parse error,
and the final `group[0]` (an `IndexError` on an empty group; a surviving
nested list cannot occur and is mapped to a type error). -/
def process : Nat → List Item → Except PyErr Op
  | 0, _ => .error (.valueError "recursion limit")
  | fuel + 1, group => do
    let g1 ← escapePass group
    let g2 ← collatePass g1
    let g3 ← sublistsGo (process fuel) g2 0 g2
    let g4 ← unaryGo (process fuel) g3 0 0 g3
    let g5 ← concatGo (process fuel) g4 0 0 g4
    let g6 ← alternateGo (process fuel) g5 0 0 g5
    let g7 := cleanPass g6
    if 1 < g7.length then .error (.valueError "Parsing failed.")
    else
      match g7 with
      | [] => .error .indexError
      | .op o :: _ => .ok o
      | .ch c :: _ => .ok (.single c)
      | .sub _ :: _ => .error .typeError

/-- The escape-aware parenthesis delta of the character at position `i`
(matching the lookback test of `_extract_bracket`). -/
def parDelta (text : List Char) (i : Nat) (c : Char) : Int :=
  if c = '(' then (if 0 < i ∧ text.get? (i - 1) = some '\\' then 0 else 1)
  else if c = ')' then (if 0 < i ∧ text.get? (i - 1) = some '\\' then 0 else -1)
  else 0

/-- The running count of unescaped parentheses over a suffix starting at
position `i`. -/
def netFrom (text : List Char) : List Char → Nat → Int
  | [], _ => 0
  | c :: rest, i => parDelta text i c + netFrom text rest (i + 1)

/-- The net count of unescaped parentheses of a text. -/
def netCount (text : List Char) : Int := netFrom text text 0

/-- If the bracket-extraction loop succeeds, the carried count plus the net
count of the remaining suffix is zero. -/
theorem extractGo_ok_net (f : List Char → Except PyErr (List Item))
    (text : List Char) :
    ∀ (rest : List Char) (i : Nat) (pc lp rp : Int) (res r : List Item),
      extractGo f text rest i pc lp rp res = .ok r →
      pc + netFrom text rest i = 0 := by
  intro rest
  induction rest with
  | nil =>
    intro i pc lp rp res r h
    simp only [extractGo] at h
    by_cases hpc : pc = 0
    · simp [netFrom, hpc]
    · simp only [if_pos (by exact hpc : pc ≠ 0)] at h
      cases h
  | cons c rest ih =>
    intro i pc lp rp res r h
    simp only [extractGo] at h
    have hnet : netFrom text (c :: rest) i =
        parDelta text i c + netFrom text rest (i + 1) := rfl
    by_cases hc : c = '('
    · simp only [if_pos hc] at h
      by_cases hesc : 0 < i ∧ text.get? (i - 1) = some '\\'
      · simp only [if_pos hesc] at h
        have := ih (i + 1) pc lp rp (res ++ [.ch c]) r h
        rw [hnet]
        simp only [parDelta, if_pos hc, if_pos hesc]
        omega
      · simp only [if_neg hesc] at h
        have hpd : parDelta text i c = 1 := by
          simp only [parDelta, if_pos hc, if_neg hesc]
        by_cases hfire : pc + 1 = 0 ∧ 0 ≤ (if lp = -1 then (i : Int) else lp) ∧ 0 ≤ rp
        · simp only [if_pos hfire] at h
          cases hsub : f (Py.slice text ((if lp = -1 then (i : Int) else lp) + 1) rp) with
          | error e => rw [hsub] at h; cases h
          | ok subL =>
            rw [hsub] at h
            have := ih (i + 1) (pc + 1) (-1) (-1) (res ++ [.sub subL]) r h
            rw [hnet, hpd]
            omega
        · simp only [if_neg hfire] at h
          have := ih (i + 1) (pc + 1) (if lp = -1 then (i : Int) else lp) rp res r h
          rw [hnet, hpd]
          omega
    · simp only [if_neg hc] at h
      by_cases hc2 : c = ')'
      · simp only [if_pos hc2] at h
        by_cases hesc : 0 < i ∧ text.get? (i - 1) = some '\\'
        · simp only [if_pos hesc] at h
          have := ih (i + 1) pc lp rp (res ++ [.ch c]) r h
          rw [hnet]
          simp only [parDelta, if_neg hc, if_pos hc2, if_pos hesc]
          omega
        · simp only [if_neg hesc] at h
          have hpd : parDelta text i c = -1 := by
            simp only [parDelta, if_neg hc, if_pos hc2, if_neg hesc]
          by_cases hfire : pc - 1 = 0 ∧ 0 ≤ lp ∧ 0 ≤ (i : Int)
          · simp only [if_pos hfire] at h
            cases hsub : f (Py.slice text (lp + 1) (i : Int)) with
            | error e => rw [hsub] at h; cases h
            | ok subL =>
              rw [hsub] at h
              have := ih (i + 1) (pc - 1) (-1) (-1) (res ++ [.sub subL]) r h
              rw [hnet, hpd]
              omega
          · simp only [if_neg hfire] at h
            have := ih (i + 1) (pc - 1) lp (i : Int) res r h
            rw [hnet, hpd]
            omega
      · simp only [if_neg hc2] at h
        have hpd : parDelta text i c = 0 := by
          simp only [parDelta, if_neg hc, if_neg hc2]
        by_cases hfire : pc = 0 ∧ 0 ≤ lp ∧ 0 ≤ rp
        · simp only [if_pos hfire] at h
          cases hsub : f (Py.slice text (lp + 1) rp) with
          | error e => rw [hsub] at h; cases h
          | ok subL =>
            rw [hsub] at h
            have := ih (i + 1) pc (-1) (-1) _ r h
            rw [hnet, hpd]
            omega
        · simp only [if_neg hfire] at h
          have := ih (i + 1) pc lp rp _ r h
          rw [hnet, hpd]
          omega

/-- With fuel above the text length, bracket extraction either succeeds or
fails with the unbalanced-parentheses parse error (recursive groups are
strictly shorter, so the recursion bound is never hit). -/
theorem extractBracket_ok_or_unbalanced :
    ∀ (n : Nat) (text : List Char), text.length < n →
      (∃ r, extractBracket n text = .ok r) ∨
      extractBracket n text = .error (.valueError "Unbalanced parentheses.") := by
  intro n
  induction n with
  | zero => intro text h; omega
  | succ n ih =>
    intro text hlen
    suffices hgen : ∀ (rest : List Char) (i : Nat) (pc lp rp : Int)
        (res : List Item), rest.length ≤ text.length →
        (∃ r, extractGo (extractBracket n) text rest i pc lp rp res = .ok r) ∨
        extractGo (extractBracket n) text rest i pc lp rp res =
          .error (.valueError "Unbalanced parentheses.") by
      exact hgen text 0 0 (-1) (-1) [] le_rfl
    intro rest
    induction rest with
    | nil =>
      intro i pc lp rp res _
      simp only [extractGo]
      by_cases hpc : pc = 0
      · left
        exact ⟨res, by simp [hpc]⟩
      · right
        simp [hpc]
    | cons c rest ihr =>
      intro i pc lp rp res hr
      have hr2 : rest.length ≤ text.length :=
        le_trans (Nat.le_succ _) (by simpa using hr)
      have htLen : 1 ≤ text.length := le_trans (by simp) hr
      have hslice : ∀ (a b : Int), 0 ≤ a →
          (Py.slice text (a + 1) b).length < n := by
        intro a b ha
        have hclamp : 1 ≤ Py.clamp text.length (a + 1) := by
          simp only [Py.clamp]
          split
          · omega
          · refine le_min ?_ htLen
            omega
        have h3 : (text.take (Py.clamp text.length b)).length ≤ text.length := by
          rw [List.length_take]
          exact min_le_right _ _
        simp only [Py.slice, List.length_drop]
        omega
      simp only [extractGo]
      by_cases hc : c = '('
      · simp only [if_pos hc]
        by_cases hesc : 0 < i ∧ text.get? (i - 1) = some '\\'
        · simp only [if_pos hesc]
          exact ihr (i + 1) pc lp rp (res ++ [.ch c]) hr2
        · simp only [if_neg hesc]
          by_cases hfire : pc + 1 = 0 ∧ 0 ≤ (if lp = -1 then (i : Int) else lp) ∧ 0 ≤ rp
          · simp only [if_pos hfire]
            rcases ih (Py.slice text ((if lp = -1 then (i : Int) else lp) + 1) rp)
                (hslice _ rp hfire.2.1) with ⟨r, hok⟩ | herr
            · rw [hok]
              exact ihr (i + 1) (pc + 1) (-1) (-1) _ hr2
            · rw [herr]
              right
              rfl
          · simp only [if_neg hfire]
            exact ihr (i + 1) (pc + 1) _ rp res hr2
      · simp only [if_neg hc]
        by_cases hc2 : c = ')'
        · simp only [if_pos hc2]
          by_cases hesc : 0 < i ∧ text.get? (i - 1) = some '\\'
          · simp only [if_pos hesc]
            exact ihr (i + 1) pc lp rp (res ++ [.ch c]) hr2
          · simp only [if_neg hesc]
            by_cases hfire : pc - 1 = 0 ∧ 0 ≤ lp ∧ 0 ≤ (i : Int)
            · simp only [if_pos hfire]
              rcases ih (Py.slice text (lp + 1) (i : Int))
                  (hslice lp (i : Int) hfire.2.1) with ⟨r, hok⟩ | herr
              · rw [hok]
                exact ihr (i + 1) (pc - 1) (-1) (-1) _ hr2
              · rw [herr]
                right
                rfl
            · simp only [if_neg hfire]
              exact ihr (i + 1) (pc - 1) lp (i : Int) res hr2
        · simp only [if_neg hc2]
          by_cases hfire : pc = 0 ∧ 0 ≤ lp ∧ 0 ≤ rp
          · simp only [if_pos hfire]
            rcases ih (Py.slice text (lp + 1) rp)
                (hslice lp rp hfire.2.1) with ⟨r, hok⟩ | herr
            · rw [hok]
              exact ihr (i + 1) pc (-1) (-1) _ hr2
            · rw [herr]
              right
              rfl
          · simp only [if_neg hfire]
            exact ihr (i + 1) pc lp rp _ hr2

/-- A nonzero net count of unescaped parentheses makes bracket extraction
fail with the unbalanced-parentheses parse error. -/
theorem extract_unbalanced_of_net (text : List Char)
    (h : netCount text ≠ 0) :
    extractBracket (text.length + 1) text =
      .error (.valueError "Unbalanced parentheses.") := by
  rcases extractBracket_ok_or_unbalanced (text.length + 1) text
      (Nat.lt_succ_self _) with ⟨r, hok⟩ | herr
  · exfalso
    apply h
    have hnet := extractGo_ok_net (extractBracket text.length) text text 0 0
      (-1) (-1) [] r (by simpa [extractBracket] using hok)
    simpa [netCount] using hnet
  · exact herr

/-- The group has a `]` before any `-`: the exact condition under which the
collation pass raises its parse error. -/
def closeBeforeDash : List Item → Bool
  | [] => false
  | .ch c :: rest =>
    if c = ']' then true else if c = '-' then false else closeBeforeDash rest
  | _ :: rest => closeBeforeDash rest

/-- A failed collation construction raises the operand-type error. -/
theorem mkCollation_error {x y : Item} {e : PyErr}
    (h : mkCollation x y = .error e) : e = .operatorInputTypeError := by
  cases x <;> cases y <;> simp only [mkCollation, Except.error.injEq] at h <;>
    first
    | exact h.symm
    | exact Except.noConfusion h

/-- Once a `-` has been recorded, the collation pass can no longer raise any
`ValueError` (failures past that point are type errors). -/
theorem collateGo_no_valueError (g : List Item) :
    ∀ (rest : List Item) (i : Nat) (lp d : Int) (comp : Nat)
      (copied : List Item) (msg : String), d ≠ -1 →
      collateGo g rest i lp d comp copied ≠ .error (.valueError msg) := by
  intro rest
  induction rest with
  | nil => intro i lp d comp copied msg _ h; cases h
  | cons it rest ih =>
    intro i lp d comp copied msg hd h
    match it with
    | .sub l => exact ih (i + 1) lp d comp copied msg hd h
    | .op o => exact ih (i + 1) lp d comp copied msg hd h
    | .ch c =>
      simp only [collateGo] at h
      by_cases hc : c = '['
      · rw [if_pos hc] at h
        exact ih (i + 1) (i : Int) d comp copied msg hd h
      · rw [if_neg hc] at h
        by_cases hc2 : c = '-'
        · rw [if_pos hc2] at h
          exact ih (i + 1) lp (i : Int) comp copied msg (by omega) h
        · rw [if_neg hc2] at h
          by_cases hc3 : c = ']'
          · rw [if_pos hc3, if_pos hd] at h
            rw [show Py.sliceStep2 copied (lp + 1 - (comp : Int))
                ((i : Int) - comp) = Py.sliceStep2 copied (lp + 1 - comp)
                ((i : Int) - comp) from rfl] at h
            cases hmk : collArgs
                (Py.sliceStep2 copied (lp + 1 - comp) ((i : Int) - comp)) with
            | error e =>
              rw [hmk] at h
              have h2 : (Except.error e : Except PyErr (List Item)) =
                  .error (.valueError msg) := h
              have he : e ≠ .valueError msg := by
                cases hargs : Py.sliceStep2 copied (lp + 1 - comp)
                    ((i : Int) - comp) with
                | nil =>
                  rw [hargs] at hmk
                  simp only [collArgs, Except.error.injEq] at hmk
                  rw [← hmk]
                  intro hcontra
                  exact PyErr.noConfusion hcontra
                | cons x tl =>
                  cases tl with
                  | nil =>
                    rw [hargs] at hmk
                    simp only [collArgs, Except.error.injEq] at hmk
                    rw [← hmk]
                    intro hcontra
                    exact PyErr.noConfusion hcontra
                  | cons y tl2 =>
                    cases tl2 with
                    | nil =>
                      rw [hargs] at hmk
                      simp only [collArgs] at hmk
                      rw [mkCollation_error hmk]
                      intro hcontra
                      exact PyErr.noConfusion hcontra
                    | cons z tl3 =>
                      rw [hargs] at hmk
                      simp only [collArgs, Except.error.injEq] at hmk
                      rw [← hmk]
                      intro hcontra
                      exact PyErr.noConfusion hcontra
              exact he (Except.error.inj h2)
            | ok o =>
              rw [hmk] at h
              exact ih (i + 1) lp d (comp + 4) _ msg hd h
          · rw [if_neg hc3] at h
            exact ih (i + 1) lp d comp copied msg hd h

/-- While no `-` has been seen, the collation pass raises its parse error
exactly when a `]` occurs before any `-` among the remaining items. -/
theorem collateGo_error_iff (g : List Item) :
    ∀ (rest : List Item) (i : Nat) (lp : Int) (comp : Nat)
      (copied : List Item),
      (collateGo g rest i lp (-1) comp copied =
        .error (.valueError "Collation parsing failed, missing - character")) ↔
      closeBeforeDash rest = true := by
  intro rest
  induction rest with
  | nil =>
    intro i lp comp copied
    simp [collateGo, closeBeforeDash]
  | cons it rest ih =>
    intro i lp comp copied
    match it with
    | .sub l =>
      simp only [collateGo, closeBeforeDash]
      exact ih (i + 1) lp comp copied
    | .op o =>
      simp only [collateGo, closeBeforeDash]
      exact ih (i + 1) lp comp copied
    | .ch c =>
      simp only [collateGo, closeBeforeDash]
      by_cases hc : c = '['
      · have hc3 : c ≠ ']' := by simp [hc]
        have hc2 : c ≠ '-' := by simp [hc]
        simp only [if_pos hc, if_neg hc3, if_neg hc2]
        exact ih (i + 1) (i : Int) comp copied
      · by_cases hc2 : c = '-'
        · have hc3 : c ≠ ']' := by simp [hc2]
          simp only [if_neg hc, if_pos hc2, if_neg hc3]
          constructor
          · intro h
            exact absurd h
              (collateGo_no_valueError g rest (i + 1) lp (i : Int) comp copied _
                (by omega))
          · intro h
            exact Bool.noConfusion h
        · by_cases hc3 : c = ']'
          · simp only [if_neg hc, if_neg hc2, if_pos hc3,
              if_neg (show ¬ (-1 : Int) ≠ -1 by simp)]
          · simp only [if_neg hc, if_neg hc2, if_neg hc3]
            exact ih (i + 1) lp comp copied

/-- `RegEx._collate` raises its parse error exactly when the group's first
`]` comes before any `-`. -/
theorem collatePass_error_iff (g : List Item) :
    (collatePass g =
      .error (.valueError "Collation parsing failed, missing - character")) ↔
    closeBeforeDash g = true :=
  collateGo_error_iff g g 0 (-1) 0 g

/-- A group that still holds more than one item after the reduction pipeline
makes `_process` raise the residual parse error. -/
theorem process_residual (fuel : Nat) (group g1 g2 g3 g4 g5 g6 : List Item)
    (h1 : escapePass group = .ok g1) (h2 : collatePass g1 = .ok g2)
    (h3 : sublistsGo (process fuel) g2 0 g2 = .ok g3)
    (h4 : unaryGo (process fuel) g3 0 0 g3 = .ok g4)
    (h5 : concatGo (process fuel) g4 0 0 g4 = .ok g5)
    (h6 : alternateGo (process fuel) g5 0 0 g5 = .ok g6)
    (hlen : 1 < (cleanPass g6).length) :
    process (fuel + 1) group = .error (.valueError "Parsing failed.") := by
  simp only [process, h1, h2, h3, h4, h5, h6, Except.bind, bind]
  rw [if_pos hlen]

/-- `RegEx.__init__` followed by `.execute()`: compile a pattern to its
automaton. -/
def regexCompile (text : List Char) : Except PyErr ENFA := do
  let groups ← extractBracket (text.length + 1) text
  let o ← process (text.length + 1) groups
  .ok o.execute

/-- Compile a pattern and check a text against it, as the module-level
constants of `regular_expressions.py` are used. -/
def checkCompiled (p s : String) : Except PyErr (Except String Bool) := do
  let A ← regexCompile p.toList
  return A.check s.toList

end RegEx


/-! ## The deterministic PDA step (`pda.py`). -/

/-- A deterministic pushdown automaton.  The state-graph, stack, and input
pack primitives (`automata/state.py`, `automata/packs.py`, `automata/dfa.py`)
are not in the source tree, so the transition table is modelled from spec
section 4.6: each transition is keyed by (state, input symbol, stack top)
and emits (new state, stack push sequence).  `failState` is the designated
failure state (`PushState('fail', 0)` in `DeterministicPDA.__init__`). -/
structure PDA where
  states : List Nat
  inputs : List String
  stackAlphabet : List String
  startState : Nat
  accepts : List Nat
  startSymbol : String
  emptySymbol : String
  delta : List (Nat × String × String × Nat × List String)
  failState : Nat

namespace PDA

/-- `PushState.clean_forward(InputPack(v, t))`: the transitions of the
current state under input `v` and stack top `t`. -/
def cleanForward (P : PDA) (s : Nat) (v t : String) : List (Nat × List String) :=
  (P.delta.filter (fun d => d.1 = s ∧ d.2.1 = v ∧ d.2.2.1 = t)).map
    (fun d => d.2.2.2)

/-- Modelled from the spec: pushing a transition's push sequence onto the
stack, with the epsilon placeholder excluded
(`self.stack += stack.exclude(self.empty_symbol)`). -/
def pushSeq (P : PDA) (stack : List String) (seq : List String) : List String :=
  (seq.filter (fun x => x ≠ P.emptySymbol)).foldl (fun st x => x :: st) stack

/-- `DeterministicPDA._access(value)`: the step on one input symbol.
Returns (input consumed?, new state, new stack).  An empty stack fails
immediately; otherwise the top is popped, the epsilon-input transition is
tried first (without consuming the input), then the transition on the input
symbol; if both are absent the machine enters the failure state.  The
deterministic machine has at most one transition per key (`unpack` takes
it). -/
def pdaStep (P : PDA) (cur : Nat) (stack : List String) (v : String) :
    Bool × Nat × List String :=
  match stack with
  | [] => (true, P.failState, stack)
  | t :: rest =>
    match P.cleanForward cur P.emptySymbol t with
    | (ns, seq) :: _ => (false, ns, P.pushSeq rest seq)
    | [] =>
      match P.cleanForward cur v t with
      | (ns, seq) :: _ => (true, ns, P.pushSeq rest seq)
      | [] => (true, P.failState, rest)

end PDA


/-! ## Helper lemmas for the claim theorems. -/

theorem exceptBind_ok {α β : Type} (x : Except PyErr α) (f : α → Except PyErr β)
    (b : β) : (x >>= f) = .ok b ↔ ∃ a, x = .ok a ∧ f a = .ok b := by
  cases x with
  | error e => simp [Bind.bind, Except.bind]
  | ok a => simp [Bind.bind, Except.bind]

/-- Inversion of a successful compilation: extraction succeeded, processing
succeeded, and the automaton is the operator tree's execution. -/
theorem regexCompile_ok {p : List Char} {A : ENFA}
    (h : RegEx.regexCompile p = .ok A) :
    ∃ (g : List Item) (o : Op),
      RegEx.extractBracket (p.length + 1) p = .ok g ∧
      RegEx.process (p.length + 1) g = .ok o ∧ A = o.execute := by
  unfold RegEx.regexCompile at h
  rw [exceptBind_ok] at h
  obtain ⟨g, hg, h⟩ := h
  rw [exceptBind_ok] at h
  obtain ⟨o, ho, h⟩ := h
  exact ⟨g, o, hg, ho, (Except.ok.inj h).symm⟩

namespace ENFA

theorem forward_mem (A : ENFA) {s : Nat} {v : String} {t : Nat} :
    t ∈ A.forward s v ↔ ∃ e ∈ A.trans, e.1 = s ∧ e.2.1 = v ∧ e.2.2 = t := by
  simp only [forward, List.mem_map, List.mem_filter, decide_eq_true_eq]
  constructor
  · rintro ⟨e, ⟨he, h1, h2⟩, rfl⟩
    exact ⟨e, he, h1, h2, rfl⟩
  · rintro ⟨e, he, h1, h2, h3⟩
    exact ⟨e, ⟨he, h1, h2⟩, h3⟩

theorem toNat_ofNat_valid {n : Nat} (h : n.isValidChar) :
    (Char.ofNat n).toNat = n := by
  simp [Char.ofNat, dif_pos h, Char.ofNatAux, Char.toNat, UInt32.toNat]

/-- The transitions of the collation automaton are exactly the transitions
from `c0` to `c1` on the characters of the inclusive range (stated below the
surrogate range, where every code point is a Unicode scalar value). -/
theorem collAut_trans_mem (lo hi : Char) (hhi : hi.toNat < 55296)
    (s : Nat) (y : String) (t : Nat) :
    ((s, y, t) ∈ (collAut lo hi).trans ↔
      s = 0 ∧ t = 1 ∧
        ∃ x : Char, lo.toNat ≤ x.toNat ∧ x.toNat ≤ hi.toNat ∧ y = chStr x) := by
  simp only [collAut, rangeChars, List.mem_map, List.map_map]
  constructor
  · rintro ⟨i, hi2, heq⟩
    obtain ⟨j, hj, rfl⟩ := List.mem_range'.mp hi2
    have hval : (lo.toNat + 1 * j).isValidChar := Or.inl (by omega)
    have htn := toNat_ofNat_valid hval
    injection heq with h1 h2
    injection h2 with h2 h3
    subst h1
    subst h3
    refine ⟨rfl, rfl, Char.ofNat (lo.toNat + 1 * j), ?_, ?_, h2.symm⟩
    · omega
    · omega
  · rintro ⟨rfl, rfl, x, hx1, hx2, rfl⟩
    refine ⟨x.toNat, List.mem_range'.mpr ⟨x.toNat - lo.toNat, by omega, by omega⟩, ?_⟩
    simp only [Function.comp_apply, Char.ofNat_toNat]
theorem collAut_trans_length (lo hi : Char) :
    (collAut lo hi).trans.length = hi.toNat + 1 - lo.toNat := by
  simp [collAut, rangeChars]

theorem collAutAA_acceptsFrom : ∀ (s : Nat) (w : List Char),
    (collAut 'a' 'a').AcceptsFrom s w →
    (s = 0 ∧ w = ['a']) ∨ (s = 1 ∧ w = []) := by
  intro s w h
  induction h with
  | done hs =>
    right
    refine ⟨?_, rfl⟩
    have htr : (collAut 'a' 'a').accepts = [1] := rfl
    rw [htr] at hs
    simpa using hs
  | eps hst _ ih =>
    exfalso
    rw [forward_mem] at hst
    obtain ⟨e, he, h1, h2, h3⟩ := hst
    have htr : (collAut 'a' 'a').trans = [(0, chStr 'a', 1)] := rfl
    rw [htr] at he
    simp only [List.mem_singleton] at he
    subst he
    exact absurd h2 (by decide)
  | consume hf ha ih =>
    rw [forward_mem] at hf
    obtain ⟨e, he, h1, h2, h3⟩ := hf
    have htr : (collAut 'a' 'a').trans = [(0, chStr 'a', 1)] := rfl
    rw [htr] at he
    simp only [List.mem_singleton] at he
    subst he
    left
    refine ⟨h1.symm, ?_⟩
    have h4 := h2
    simp only [chStr] at h4
    have h5 := congrArg String.data h4
    rw [← h3] at ih
    rcases ih with ⟨h10, _⟩ | ⟨_, hw⟩
    · exact absurd h10 (by decide)
    · rw [hw]
      exact h5.symm
/-- The single-character collation automaton accepts exactly its single
character. -/
theorem collAutAA_lang (w : List Char) :
    ((collAut 'a' 'a').check w = .ok true) ↔ w = ['a'] := by
  obtain ⟨b, hb, hiff⟩ := check_spec (collAut 'a' 'a') (by decide) w
  constructor
  · intro h
    rw [h] at hb
    have hbtrue : b = true := (Except.ok.inj hb).symm
    have hacc : (collAut 'a' 'a').Accepts w := hiff.mp hbtrue
    rcases collAutAA_acceptsFrom _ w hacc with ⟨_, hw⟩ | ⟨h01, _⟩
    · exact hw
    · exact absurd h01 (by decide)
  · intro h
    subst h
    have hacc : (collAut 'a' 'a').Accepts ['a'] :=
      AcceptsFrom.consume (t := 1) (by decide) (AcceptsFrom.done (by decide))
    have hbtrue : b = true := hiff.mpr hacc
    rw [hbtrue] at hb
    exact hb

end ENFA

/-- A concrete deterministic PDA used to instantiate the step theorem. -/
def pdaExample : PDA where
  states := [0]
  inputs := ["a", "$"]
  stackAlphabet := ["Z"]
  startState := 0
  accepts := [0]
  startSymbol := "Z"
  emptySymbol := "$"
  delta := [(0, "$", "Z", 0, ["Z", "Z"])]
  failState := 1


/-! ## The claims. -/

/-- C1: for every compiled regex and text, `check` returns (without raising)
true iff the automaton accepts the text in full; any character of the text
outside `valid_characters` makes `check` return false; and the `INTEGER`
regex `[0-9]+` accepts "0" and "123" and rejects "" and "1a". -/
theorem claim_C1 :
    (∀ (p : List Char) (A : ENFA), RegEx.regexCompile p = .ok A →
      ∀ w : List Char, ∃ b, A.check w = .ok b ∧ (b = true ↔ A.Accepts w)) ∧
    (∀ (p : List Char) (A : ENFA), RegEx.regexCompile p = .ok A →
      ∀ (w : List Char) (c : Char), c ∈ w → ENFA.chStr c ∉ A.inputs →
        A.check w = .ok false) ∧
    RegEx.checkCompiled "[0-9]+" "0" = .ok (.ok true) ∧
    RegEx.checkCompiled "[0-9]+" "123" = .ok (.ok true) ∧
    RegEx.checkCompiled "[0-9]+" "" = .ok (.ok false) ∧
    RegEx.checkCompiled "[0-9]+" "1a" = .ok (.ok false) := by
  refine ⟨?_, ?_, by rfl, by rfl, by rfl, by rfl⟩
  · intro p A h w
    obtain ⟨g, o, _, _, rfl⟩ := regexCompile_ok h
    exact ENFA.check_spec o.execute (Op.execute_WFe o).1 w
  · intro p A h w c hc hn
    obtain ⟨g, o, _, _, rfl⟩ := regexCompile_ok h
    exact ENFA.check_invalid_char o.execute (Op.execute_WFe o).1 hc hn

theorem claim_C1_witness :
    ∃ b, (ENFA.primAut (ENFA.chStr 'a')).check ['a'] = .ok b ∧
      (b = true ↔ (ENFA.primAut (ENFA.chStr 'a')).Accepts ['a']) :=
  claim_C1.1 ("a".toList) (ENFA.primAut (ENFA.chStr 'a')) (by rfl) ['a']

/-- C2: `enter(symbol)` raises the invalid-input error iff the symbol is not
an input; otherwise the current set becomes the epsilon closure of the union
of the forward sets (characterised by epsilon reachability), an empty union
yields the empty (dead) current set without raising, and the dead state is
non-accepting. -/
theorem claim_C2 :
    ∀ (A : ENFA) (cur : Finset Nat) (v : String),
      A.WF → (∀ s ∈ cur, s ∈ A.states) →
      (v ∉ A.inputs ↔ A.access cur v = .error "invalid input") ∧
      (v ∈ A.inputs → ∃ C, A.access cur v = .ok C ∧
        (∀ x, x ∈ C ↔ ∃ s ∈ A.nextSet cur v, A.EReach s x) ∧
        (A.nextSet cur v = ∅ → C = ∅)) ∧
      A.acceptedOn ∅ = false := by
  intro A cur v hwf hcur
  obtain ⟨C, hC⟩ := ENFA.eClosures_ok A (S := A.nextSet cur v)
    ⟨ENFA.nextSet_subset_states A hwf, ENFA.targets_subset_states A hwf⟩
  refine ⟨⟨?_, ?_⟩, ?_, ?_⟩
  · intro hnin
    simp [ENFA.access, hnin]
  · intro herr
    intro hvin
    rw [show A.access cur v = A.eClosures (A.nextSet cur v) by
      simp [ENFA.access, hvin]] at herr
    rw [hC] at herr
    exact Except.noConfusion herr
  · intro hvin
    refine ⟨C, ?_, ENFA.eClosures_spec A hC, ?_⟩
    · simp [ENFA.access, hvin, hC]
    · intro hempty
      refine Finset.eq_empty_iff_forall_not_mem.mpr ?_
      intro x hx
      obtain ⟨u, hu, _⟩ := (ENFA.eClosures_spec A hC x).mp hx
      rw [hempty] at hu
      exact absurd hu (Finset.not_mem_empty u)
  · refine List.any_eq_false.mpr ?_
    intro a _
    simp

theorem claim_C2_witness :
    (∃ C, (ENFA.primAut "a").access {0} "a" = .ok C ∧
      (∀ x, x ∈ C ↔
        ∃ s ∈ (ENFA.primAut "a").nextSet {0} "a", (ENFA.primAut "a").EReach s x) ∧
      ((ENFA.primAut "a").nextSet {0} "a" = ∅ → C = ∅)) :=
  (claim_C2 (ENFA.primAut "a") {0} "a" (by decide) (by decide)).2.1 (by decide)

/-- C3 counterexample: the pattern `-[a]` reaches its `]` with no `-`
between `[` and `]`, which the claim classifies as a parse error, yet
compilation fails with a `TypeError` (the stale earlier `-` makes `_collate`
splat a one-element slice into the two-argument `Collation` constructor)
rather than a parse error. -/
theorem claim_C3_counterexample :
    RegEx.regexCompile ("-[a]".toList) = .error .typeError := by rfl

/-- C3 (amended): compilation raises parse errors as follows: a nonzero net
count of unescaped parentheses fails with "Unbalanced parentheses."; the
collation pass raises its parse error exactly when a `]` appears in the
group before any `-` (not merely when the `-` is missing between `[` and
`]`); and a group that still holds more than one item after the reduction
pipeline fails with "Parsing failed.". -/
theorem claim_C3 :
    (∀ text : List Char, RegEx.netCount text ≠ 0 →
      RegEx.extractBracket (text.length + 1) text =
        .error (.valueError "Unbalanced parentheses.")) ∧
    (∀ g : List Item,
      (RegEx.collatePass g =
        .error (.valueError "Collation parsing failed, missing - character")) ↔
      RegEx.closeBeforeDash g = true) ∧
    (∀ (fuel : Nat) (group g1 g2 g3 g4 g5 g6 : List Item),
      RegEx.escapePass group = .ok g1 → RegEx.collatePass g1 = .ok g2 →
      RegEx.sublistsGo (RegEx.process fuel) g2 0 g2 = .ok g3 →
      RegEx.unaryGo (RegEx.process fuel) g3 0 0 g3 = .ok g4 →
      RegEx.concatGo (RegEx.process fuel) g4 0 0 g4 = .ok g5 →
      RegEx.alternateGo (RegEx.process fuel) g5 0 0 g5 = .ok g6 →
      1 < (RegEx.cleanPass g6).length →
      RegEx.process (fuel + 1) group = .error (.valueError "Parsing failed.")) :=
  ⟨RegEx.extract_unbalanced_of_net, RegEx.collatePass_error_iff,
   RegEx.process_residual⟩

theorem claim_C3_witness :
    RegEx.extractBracket (("(".toList).length + 1) ("(".toList) =
      .error (.valueError "Unbalanced parentheses.") ∧
    RegEx.collatePass [.ch '[', .ch 'a', .ch ']'] =
      .error (.valueError "Collation parsing failed, missing - character") ∧
    RegEx.process 1 [.ch 'a', .ch '|', .ch '|', .ch 'b'] =
      .error (.valueError "Parsing failed.") :=
  ⟨claim_C3.1 ("(".toList) (by decide),
   (claim_C3.2.1 [.ch '[', .ch 'a', .ch ']']).mpr (by rfl),
   claim_C3.2.2 0 [.ch 'a', .ch '|', .ch '|', .ch 'b']
     [.ch 'a', .ch '|', .ch '|', .ch 'b'] [.ch 'a', .ch '|', .ch '|', .ch 'b']
     [.ch 'a', .ch '|', .ch '|', .ch 'b'] [.ch 'a', .ch '|', .ch '|', .ch 'b']
     [.ch 'a', .ch '|', .ch '|', .ch 'b']
     [.op (.alt (.single 'a') (.single '|')), .op (.alt (.single 'b') (.single 'b'))]
     (by rfl) (by rfl) (by rfl) (by rfl) (by rfl) (by rfl) (by decide)⟩

/-- C4: `KleenePlus.execute()` is the concatenation of a deep copy of the
operand's automaton with the operand's Kleene closure, and the compiled
regex `(ab)+` accepts "ab" and "abab" and rejects "a" and "". -/
theorem claim_C4 :
    (∀ x : Op, (Op.plus x).execute =
      ENFA.concatA (ENFA.deepcopyA x.execute) (ENFA.kleeneA x.execute)) ∧
    RegEx.checkCompiled "(ab)+" "ab" = .ok (.ok true) ∧
    RegEx.checkCompiled "(ab)+" "abab" = .ok (.ok true) ∧
    RegEx.checkCompiled "(ab)+" "a" = .ok (.ok false) ∧
    RegEx.checkCompiled "(ab)+" "" = .ok (.ok false) :=
  ⟨fun _ => rfl, by rfl, by rfl, by rfl, by rfl⟩

/-- C5: the collation automaton has start `c0`, accept `c1`, and one
transition `c0 --x--> c1` for each character `x` of the inclusive range
(stated for ranges of Unicode scalar values below the surrogate block,
the only code points a character can carry); the single-character collation
`[a-a]` accepts exactly "a". -/
theorem claim_C5 :
    (∀ lo hi : Char, hi.toNat < 55296 →
      (∀ (s : Nat) (y : String) (t : Nat),
        (s, y, t) ∈ (ENFA.collAut lo hi).trans ↔
        s = 0 ∧ t = 1 ∧
          ∃ x : Char, lo.toNat ≤ x.toNat ∧ x.toNat ≤ hi.toNat ∧
            y = ENFA.chStr x) ∧
      (ENFA.collAut lo hi).trans.length = hi.toNat + 1 - lo.toNat ∧
      (ENFA.collAut lo hi).startState = 0 ∧
      (ENFA.collAut lo hi).accepts = [1]) ∧
    (∀ w : List Char, (ENFA.collAut 'a' 'a').check w = .ok true ↔ w = ['a']) :=
  ⟨fun lo hi hhi =>
    ⟨fun s y t => ENFA.collAut_trans_mem lo hi hhi s y t,
     ENFA.collAut_trans_length lo hi, rfl, rfl⟩,
   ENFA.collAutAA_lang⟩

theorem claim_C5_witness :
    ('z'.toNat < 55296) ∧
    (ENFA.collAut 'a' 'z').trans.length = 'z'.toNat + 1 - 'a'.toNat ∧
    ((ENFA.collAut 'a' 'a').check ("a".toList) = .ok true ↔
      ("a".toList) = ['a']) :=
  ⟨by decide, (claim_C5.1 'a' 'z' (by decide)).2.1, claim_C5.2 ("a".toList)⟩

/-- C6: the compiled regex `a?` does not accept "a".  The character branch
of `QuestionMark.execute` never formats its factory template, so the literal
symbol `"{0}"` becomes the automaton's only non-epsilon input, the operand
`a` is dropped, and `check("a")` is false (while `check("")` is true). -/
theorem claim_C6 :
    RegEx.regexCompile ("a?".toList) = .ok ENFA.qmCharAut ∧
    ENFA.qmCharAut.inputs = ["{0}", ENFA.eps] ∧
    ENFA.qmCharAut.check ("a".toList) = .ok false ∧
    ENFA.qmCharAut.check ("".toList) = .ok true ∧
    ENFA.chStr 'a' ∉ ENFA.qmCharAut.inputs :=
  ⟨by rfl, rfl, by rfl, by rfl, by decide⟩

/-- C7: the epsilon closure is idempotent: for every set of states of an
epsilon NFA, closing the closure returns it unchanged; the closure is the
set of epsilon-reachable states — the smallest superset of `S` closed under
epsilon transitions. -/
theorem claim_C7 :
    ∀ (A : ENFA) (S : Finset Nat),
      (∀ x ∈ A.targets, x ∈ A.states) → (∀ s ∈ S, s ∈ A.states) →
      ∃ R, A.eClosures S = .ok R ∧ A.eClosures R = .ok R ∧
        A.EClosed (↑R : Set Nat) ∧ (∀ s ∈ S, s ∈ R) ∧
        (∀ x, x ∈ R ↔ ∃ s ∈ S, A.EReach s x) ∧
        (∀ T : Set Nat, A.EClosed T → (∀ s ∈ S, s ∈ T) → ∀ x ∈ R, x ∈ T) := by
  intro A S ht hS
  obtain ⟨R, hR⟩ := ENFA.eClosures_ok A ⟨hS, ht⟩
  exact ⟨R, hR, ENFA.eClosures_idem A ht hS hR, ENFA.eClosures_closed A hR,
    fun s hs => ENFA.eClosures_subset A hR hs, ENFA.eClosures_spec A hR,
    fun T hT hST x hx => ENFA.eClosures_min A hT hST hR hx⟩

theorem claim_C7_witness :
    ∃ R, (ENFA.primAut "a").eClosures {0} = .ok R ∧
      (ENFA.primAut "a").eClosures R = .ok R ∧
      (ENFA.primAut "a").EClosed (↑R : Set Nat) ∧
      (∀ s ∈ ({0} : Finset Nat), s ∈ R) ∧
      (∀ x, x ∈ R ↔ ∃ s ∈ ({0} : Finset Nat), (ENFA.primAut "a").EReach s x) ∧
      (∀ T : Set Nat, (ENFA.primAut "a").EClosed T →
        (∀ s ∈ ({0} : Finset Nat), s ∈ T) → ∀ x ∈ R, x ∈ T) :=
  claim_C7 (ENFA.primAut "a") {0} (by decide) (by decide)

/-- C8: in every PDA step on input `v` with popped stack top `t`, the
epsilon-input transition is tried first: when it fires, its push sequence
(epsilon placeholders excluded, inside `pushSeq`) is pushed, the state is
updated and the input is not consumed; only when no epsilon transition
exists is `(v, t)` tried, consuming the input; when neither fires the
machine enters the failure state. -/
theorem claim_C8 :
    ∀ (P : PDA) (cur : Nat) (t : String) (rest : List String) (v : String),
      (∀ (ns : Nat) (seq : List String) (tl : List (Nat × List String)),
        P.cleanForward cur P.emptySymbol t = (ns, seq) :: tl →
        P.pdaStep cur (t :: rest) v = (false, ns, P.pushSeq rest seq)) ∧
      (P.cleanForward cur P.emptySymbol t = [] →
        ∀ (ns : Nat) (seq : List String) (tl : List (Nat × List String)),
          P.cleanForward cur v t = (ns, seq) :: tl →
          P.pdaStep cur (t :: rest) v = (true, ns, P.pushSeq rest seq)) ∧
      (P.cleanForward cur P.emptySymbol t = [] → P.cleanForward cur v t = [] →
        P.pdaStep cur (t :: rest) v = (true, P.failState, rest)) := by
  intro P cur t rest v
  refine ⟨?_, ?_, ?_⟩
  · intro ns seq tl h
    simp [PDA.pdaStep, h]
  · intro h1 ns seq tl h2
    simp [PDA.pdaStep, h1, h2]
  · intro h1 h2
    simp [PDA.pdaStep, h1, h2]

theorem claim_C8_witness :
    pdaExample.pdaStep 0 ["Z"] "a" =
      (false, 0, pdaExample.pushSeq [] ["Z", "Z"]) :=
  (claim_C8 pdaExample 0 "Z" [] "a").1 0 ["Z", "Z"] [] (by rfl)

/-- C9: constructing an operator with an operand outside its declared kind
raises the operand-type error at construction: `Collation` accepts exactly
two characters and rejects everything else; the unary operators and the
binary alternation and concatenation accept characters and operators but
reject nested lists. -/
theorem claim_C9 :
    (∀ x y : Item, (∃ o, RegEx.mkCollation x y = .ok o) ↔
      ((∃ c, x = .ch c) ∧ (∃ c, y = .ch c))) ∧
    (∀ x y : Item, (¬ ((∃ c, x = .ch c) ∧ (∃ c, y = .ch c))) →
      RegEx.mkCollation x y = .error .operatorInputTypeError) ∧
    (∀ (c : Char) (x : Item),
      (∃ o, RegEx.mkUnary c x = .ok o) ↔ ∀ l, x ≠ .sub l) ∧
    (∀ x y : Item, (∃ o, RegEx.mkAlternation x y = .ok o) ↔
      ((∀ l, x ≠ .sub l) ∧ (∀ l, y ≠ .sub l))) ∧
    (∀ x y : Item, (∃ o, RegEx.mkConcatenation x y = .ok o) ↔
      ((∀ l, x ≠ .sub l) ∧ (∀ l, y ≠ .sub l))) := by
  refine ⟨?_, ?_, ?_, ?_, ?_⟩
  · intro x y
    cases x <;> cases y <;> simp [RegEx.mkCollation]
  · intro x y h
    cases x <;> cases y <;>
      first
      | rfl
      | exact absurd ⟨⟨_, rfl⟩, ⟨_, rfl⟩⟩ h
  · intro c x
    cases x <;> simp [RegEx.mkUnary]
  · intro x y
    cases x <;> cases y <;> simp [RegEx.mkAlternation, RegEx.toOperand]
  · intro x y
    cases x <;> cases y <;> simp [RegEx.mkConcatenation, RegEx.toOperand]

theorem claim_C9_witness :
    RegEx.mkCollation (.op (.single 'a')) (.ch 'b') =
      .error .operatorInputTypeError :=
  claim_C9.2.1 (.op (.single 'a')) (.ch 'b')
    (by rintro ⟨⟨c, hc⟩, -⟩; cases hc)

/-- C10: every successfully compiled regex has the epsilon symbol `$` among
its valid characters (this membership is exactly the condition of `check`'s
per-character filter, so a text containing `$` is not immediately rejected
by it). -/
theorem claim_C10 :
    ∀ (p : List Char) (A : ENFA), RegEx.regexCompile p = .ok A →
      ENFA.chStr '$' ∈ A.inputs := by
  intro p A h
  obtain ⟨g, o, _, _, rfl⟩ := regexCompile_ok h
  exact (Op.execute_WFe o).2

theorem claim_C10_witness :
    ENFA.chStr '$' ∈ (ENFA.primAut (ENFA.chStr 'a')).inputs :=
  claim_C10 ("a".toList) (ENFA.primAut (ENFA.chStr 'a')) (by rfl)
